import Mathlib

/-!
Verification of the kudzu skip-list library.

This file gives a shallow embedding of the library's core data structure
and operations, translated from the Rust source:

* `src/skiplist/mod.rs` — the `SkipList` container, its `get`, `insert`,
  `elems`, `into_elems` operations, the `Drop` implementation, and
  `random_height`;
* `src/skiplist/iter.rs` — the bottom-lane iterators (`Nodes`, `Elems`,
  `IntoElems`);
* `src/set.rs` — the four set-algebra merge iterators
  (`Difference`, `SymmetricDifference`, `Intersection`, `Union`);
* `src/map.rs` — the key/value comparator of the `Map` layer.

The embedding models the heap explicitly: a node is addressed by its index
in a list of nodes ("heap id"), a lane slot is an address (`Slot`) naming
either a head-lane cell or a cell of some node's lane array, and the
search / insert loops of the source are translated step by step, with the
loop structure made explicit through a fuel parameter (the loops of the
source have no structural termination measure; a lemma below shows the
chosen fuel is never exhausted on states reachable from `SkipList.new`).
All executions modelled here are sequential — each `compare_and_swap` of
the source runs without interference, which is the setting of the claims
being checked; the retry path taken on a failed CAS is represented by the
`Bool` result of `spliceLoop` and is proved unreachable sequentially.
-/

namespace Kudzu

/-- `MAX_HEIGHT` from `src/skiplist/mod.rs`: the number of head lanes. -/
def MAX_HEIGHT : Nat := 31

/-- A heap node, from `struct Node`/`struct InnerNode` in
`src/skiplist/mod.rs`: the element, the node's height, and its lane
array of length `height`.  Lane index `0` is the node's *top* lane and
index `height - 1` its *bottom* lane, exactly as the trailing array of
the source is laid out.  A lane slot holds `none` (a null pointer) or
the heap id of the successor node in that lane. -/
structure Node (α : Type) where
  elem : α
  height : Nat
  lanes : List (Option Nat)
deriving DecidableEq

/-- The container from `struct SkipList`: the head lane array
(`lanes`, length `MAX_HEIGHT`, index 0 = top lane) plus the heap of all
nodes allocated so far (allocation appends, so a heap id is stable). -/
structure SkipList (α : Type) where
  nodes : List (Node α)
  lanes : List (Option Nat)
deriving DecidableEq

/-- `SkipList::new()`: empty heap, all head lanes null. -/
def SkipList.new (α : Type) : SkipList α :=
  ⟨[], List.replicate MAX_HEIGHT none⟩

/-- The address of one atomic lane slot: either head lane cell `i`
of the list, or cell `i` of the lane array of the node with heap id
`id`.  This is the model of the `&AtomicPtr<Node<T>>` values the source
walks over and CASes. -/
inductive Slot where
  | head : Nat → Slot
  | node : Nat → Nat → Slot
deriving DecidableEq

/-- Load a lane slot (an atomic load in the source).  Reading an address
that does not exist returns null; such reads never occur on reachable
states. -/
def readSlot (s : SkipList α) : Slot → Option Nat
  | .head i => s.lanes.getD i none
  | .node id i =>
    match s.nodes[id]? with
    | some n => n.lanes.getD i none
    | none => none

/-- Store to a lane slot (an atomic store / successful CAS in the
source).  A store to a nonexistent address is a no-op; such stores never
occur on reachable states. -/
def writeSlot (s : SkipList α) : Slot → Option Nat → SkipList α
  | .head i, v => { s with lanes := s.lanes.set i v }
  | .node id i, v =>
    match s.nodes[id]? with
    | some n => { s with nodes := s.nodes.set id { n with lanes := n.lanes.set i v } }
    | none => s

/-- Moving to the next slot of the current lane slice: the `continue
'down` step of the source iterates the slice one cell further. -/
def nextSlot : Slot → Slot
  | .head i => .head (i + 1)
  | .node id i => .node id (i + 1)

/-- The height of the node with heap id `id` (0 for an id that is not
allocated, which never occurs on reachable states). -/
def heightOf (s : SkipList α) (id : Nat) : Nat :=
  match s.nodes[id]? with
  | some n => n.height
  | none => 0

/-- The element stored in the node with heap id `id`. -/
def elemOf (ns : List (Node α)) (id : Nat) : Option α :=
  (ns[id]?).map Node.elem

/-- The element stored in the node with heap id `id` of list `s`. -/
def elemAt (s : SkipList α) (id : Nat) : Option α :=
  elemOf s.nodes id

/-- `node.next()` from `src/skiplist/mod.rs`: the last (= bottom) lane
slot of a node. -/
def Node.next (n : Node α) : Option Nat :=
  n.lanes.getD (n.height - 1) none

/-- `SkipList::first` from `src/skiplist/mod.rs`: the bottom head
lane. -/
def SkipList.first (s : SkipList α) : Option Nat :=
  s.lanes.getD (MAX_HEIGHT - 1) none

/-! ### The search loop (`SkipList::get`, `src/skiplist/mod.rs` lines 48-81)

The walker state of the source is a slice of lane slots plus the number
`height` of slots remaining; the slice is the suffix of the head lane
array or of some node's lane array, so it is represented by the `Slot`
address of its first cell.  The query is represented by the function
`q : α → Ordering` computing `elem.cmp(&node.inner.elem)` for the stored
element of a node, exactly the `U: AbstractOrd<T>` bound of the source. -/

/-- One execution of the `'across`/`'down` loop nest of `get`.  Returns
`none` when the fuel runs out (never on reachable states), `some none`
for "not found" and `some (some id)` for a node whose element compared
`Equal`. -/
def getLoop (s : SkipList α) (q : α → Ordering) : Nat → Slot → Nat → Option (Option Nat)
  | 0, _, _ => none
  | fuel + 1, sl, height =>
    if height = 0 then some none
    else
      match readSlot s sl with
      | none => getLoop s q fuel (nextSlot sl) (height - 1)
      | some id =>
        match s.nodes[id]? with
        | none => none
        | some n =>
          match q n.elem with
          | .eq => some (some id)
          | .lt => getLoop s q fuel (nextSlot sl) (height - 1)
          | .gt => getLoop s q fuel (.node id (n.height - height)) height

/-- Fuel that is provably sufficient for every walk over a reachable
state (each step either descends one level or moves to a strictly later
node of the list). -/
def walkFuel (s : SkipList α) : Nat :=
  MAX_HEIGHT * (s.nodes.length + 2)

/-- `SkipList::get`: run the search from the whole head lane array with
`height = MAX_HEIGHT`.  The found node is returned by id (the source
returns a borrow of its element, i.e. a pointer into that node). -/
def SkipList.get (s : SkipList α) (q : α → Ordering) : Option (Option Nat) :=
  getLoop s q (walkFuel s) (.head 0) MAX_HEIGHT

/-! ### The insert loop (`SkipList::insert`, `src/skiplist/mod.rs` lines 83-161,
and its sibling `src/skiplist/insert.rs`)

The find-spots walk is the same traversal as `get`, additionally
recording, for every level it descends past, the address of the
predecessor slot and the successor pointer that slot currently holds
(`spots[height] = (atomic_ptr, ptr)` in the source, written after
`height` is decremented, so entry `ℓ` of the array belongs to level `ℓ`
counted from the bottom lane). -/

/-- The initial content of a `spots` entry: the source zero-initialises
the array (`(ptr::null(), ptr::null_mut())`); unwritten entries are
never read, because a completed walk writes every entry. -/
def spDflt : Slot × Option Nat := (Slot.head 0, none)

/-- Result of the find-spots walk: an `Equal` node was hit, or the walk
completed and produced the spots array. -/
inductive FindResult where
  | found : Nat → FindResult
  | spots : List (Slot × Option Nat) → FindResult
deriving DecidableEq

/-- The find-spots walk of `insert` (`'across`/`'down` loops), recording
spots.  `q` is `elem.cmp(&node.inner.elem)` for the element being
inserted. -/
def findLoop (s : SkipList α) (q : α → Ordering) :
    Nat → Slot → Nat → List (Slot × Option Nat) → Option FindResult
  | 0, _, _, _ => none
  | fuel + 1, sl, height, sp =>
    if height = 0 then some (.spots sp)
    else
      match readSlot s sl with
      | none => findLoop s q fuel (nextSlot sl) (height - 1) (sp.set (height - 1) (sl, none))
      | some id =>
        match s.nodes[id]? with
        | none => none
        | some n =>
          match q n.elem with
          | .eq => some (.found id)
          | .lt => findLoop s q fuel (nextSlot sl) (height - 1) (sp.set (height - 1) (sl, some id))
          | .gt => findLoop s q fuel (.node id (n.height - height)) height sp

/-- `Node::alloc` (`src/skiplist/mod.rs` lines 193-201): one zeroed
allocation of `height` lane slots, the height byte, and the element
moved in.  The model appends to the heap; the new node's id is the old
heap size. -/
def allocNode (s : SkipList α) (e : α) (hgt : Nat) : SkipList α × Nat :=
  ({ s with nodes := s.nodes ++ [⟨e, hgt, List.replicate hgt none⟩] }, s.nodes.length)

/-- The splice loop of `insert` (`'insert` loop, `src/skiplist/mod.rs`
lines 145-157): walk the spots from the bottom level `0` up to the
node's top level `hgt - 1` (the source zips `spots` with the node's
lanes reversed, pairing `spots[ℓ]` with lane index `hgt - 1 - ℓ`).  At
each level, store the recorded successor into the new node's lane, then
CAS the predecessor slot from that successor to the new node.  The
`Bool` result is `true` when the loop ends with the node linked in the
bottom lane (`return None` of the source — on a CAS failure after at
least one success the source `break`s and also returns `None`), and
`false` when the very first CAS failed, which in the source triggers the
`continue 'unlock` retry; on a sequential execution this is proved never
to happen. -/
def spliceLoop (nid : Nat) :
    SkipList α → List ((Slot × Option Nat) × Nat) → Bool → SkipList α × Bool
  | s, [], _ => (s, true)
  | s, e :: rest, inserted =>
    let s1 := writeSlot s (.node nid e.2) e.1.2
    if readSlot s1 e.1.1 = e.1.2 then
      spliceLoop nid (writeSlot s1 e.1.1 (some nid)) rest true
    else if inserted then (s1, true)
    else (s1, false)

/-- The iteration order of the `'insert` loop: the recorded spot of each
level from the bottom level `0` up to `hgt - 1`, each paired with the
lane index `hgt - 1 - ℓ` it belongs to inside the new node (the source
zips `spots` with the node's lane array reversed). -/
def spliceEntries (hgt : Nat) (sp : List (Slot × Option Nat)) :
    List ((Slot × Option Nat) × Nat) :=
  sp.zip (List.range hgt).reverse

/-- `SkipList::insert` on a sequential execution, from
`src/skiplist/mod.rs` lines 83-161.  `hgt` is the height drawn by
`random_height` for the case where a node must be allocated.  Returns
the new state together with `none` for the `Inserted` outcome and
`some e` for the `AlreadyPresent` outcome carrying the element back.
The `findLoop ... = none` (fuel) case and the failed-CAS case of
`spliceLoop` are both proved unreachable on states built from
`SkipList.new`. -/
def SkipList.insert (s : SkipList α) (cmp : α → α → Ordering) (e : α) (hgt : Nat) :
    SkipList α × Option α :=
  match findLoop s (cmp e) (walkFuel s) (.head 0) MAX_HEIGHT (List.replicate MAX_HEIGHT spDflt) with
  | none => (s, some e)
  | some (.found _) => (s, some e)
  | some (.spots sp) =>
    let a := allocNode s e hgt
    match spliceLoop a.2 a.1 (spliceEntries hgt sp) false with
    | (s2, true) => (s2, none)
    | (s2, false) => (s2, some e)

/-! ### Bottom-lane iteration (`src/skiplist/iter.rs`)

`Nodes` (and `NodesMut`) walk the bottom lane: start at
`self.lanes[MAX_HEIGHT - 1]` and follow `node.next()`.  `Elems` maps the
walk to borrows of the elements; the `Drop` impl of `SkipList`
(`src/skiplist/mod.rs` lines 251-258) walks the same `NodesMut`
iterator, deallocating each node with `node.dealloc()` — which reads the
element out — and then `drop`s that element, running its destructor. -/

/-- The bottom-lane walk of the `Nodes`/`NodesMut` iterators, by heap
id.  The fuel `ns.length + 1` used below suffices on reachable states
(the walk visits pairwise distinct nodes). -/
def nodesWalk (ns : List (Node α)) : Nat → Option Nat → List Nat
  | 0, _ => []
  | _ + 1, none => []
  | fuel + 1, some id =>
    match ns[id]? with
    | none => []
    | some n => id :: nodesWalk ns fuel n.next

/-- The sequence of elements yielded by `elems()` (iterator `Elems`). -/
def SkipList.elems (s : SkipList α) : List α :=
  (nodesWalk s.nodes (s.nodes.length + 1) s.first).filterMap (elemOf s.nodes)

/-- The heap ids deallocated by `impl Drop for SkipList`, in order: the
`Drop` impl iterates `nodes_mut()` (the same bottom-lane walk) and frees
each node it visits. -/
def SkipList.dropFreed (s : SkipList α) : List Nat :=
  nodesWalk s.nodes (s.nodes.length + 1) s.first

/-- The sequence of element destructors run by `impl Drop for SkipList`:
for each visited node, `drop(node.dealloc())` reads the element out of
the freed node and drops it. -/
def SkipList.dropDestructors (s : SkipList α) : List α :=
  (s.dropFreed).filterMap (elemOf s.nodes)

/-- The owning iterator `IntoElems` from `src/skiplist/iter.rs`:
`into_elems()` reads the bottom head lane, `mem::forget`s the list shell
and keeps only the heap and the cursor. -/
structure IntoElems (α : Type) where
  nodes : List (Node α)
  ptr : Option Nat
deriving DecidableEq

/-- `SkipList::into_elems`. -/
def SkipList.into_elems (s : SkipList α) : IntoElems α :=
  ⟨s.nodes, s.first⟩

/-- `IntoElems::next`: take the cursor, read the element out of the
node, free the node, advance to `node.next()`.  The freed heap id is
returned alongside the yielded element so that deallocations can be
accounted for. -/
def IntoElems.next (it : IntoElems α) : Option (α × Nat) × IntoElems α :=
  match it.ptr with
  | none => (none, it)
  | some id =>
    match it.nodes[id]? with
    | none => (none, it)
    | some n => (some (n.elem, id), { it with ptr := n.next })

/-- Repeatedly call `IntoElems.next` up to `fuel` times, collecting the
yielded elements and the freed heap ids. -/
def drainAux : Nat → IntoElems α → List α × List Nat × IntoElems α
  | 0, it => ([], [], it)
  | fuel + 1, it =>
    match it.next with
    | (none, it1) => ([], [], it1)
    | (some p, it1) =>
      let r := drainAux fuel it1
      (p.1 :: r.1, p.2 :: r.2.1, r.2.2)

/-- The full yield sequence of `into_elems()`. -/
def SkipList.drainAll (s : SkipList α) : List α :=
  (drainAux (s.nodes.length + 1) s.into_elems).1

/-- The element destructors run when an `IntoElems` value is dropped:
`IntoElems` has *no* `Drop` implementation in `src/skiplist/iter.rs`
(its only fields are a plain pointer and, in the model, the untouched
heap), so dropping the iterator runs no element destructor. -/
def IntoElems.dropDestructors (_it : IntoElems α) : List α := []

/-- The heap ids freed when an `IntoElems` value is dropped: none, for
the same reason. -/
def IntoElems.dropFreed (_it : IntoElems α) : List Nat := []

/-- The elements still owned by a (partially advanced) `IntoElems`
iterator: those reachable from its cursor along the bottom lane. -/
def IntoElems.remaining (it : IntoElems α) : List α :=
  (nodesWalk it.nodes (it.nodes.length + 1) it.ptr).filterMap (elemOf it.nodes)

/-! ### `random_height` (`src/skiplist/mod.rs` lines 260-263) -/

/-- Count of trailing zero bits with an explicit bit budget (the word
width bounds the recursion; the budget is never exhausted on the values
`random_height` feeds in, which always have bit 30 set). -/
def ctzAux : Nat → Nat → Nat
  | _, 0 => 32
  | 0, _ + 1 => 0
  | fuel + 1, n + 1 =>
    if (n + 1) % 2 = 1 then 0
    else ctzAux fuel ((n + 1) / 2) + 1

/-- Count of trailing zero bits, as `u32::trailing_zeros` behaves on the
values in question (`32` on zero, which never arises below). -/
def ctz (n : Nat) : Nat := ctzAux 32 n

/-- `const MASK: u32 = 1 << (MAX_HEIGHT - 1)`. -/
def MASK : Nat := 1 <<< (MAX_HEIGHT - 1)

/-- `random_height()`: `1 + (r | MASK).trailing_zeros()` for the drawn
32-bit random word `r`. -/
def random_height (r : Nat) : Nat :=
  1 + ctz (r ||| MASK)

/-! ### Set-algebra iterators (`src/set.rs`)

The two sides of each iterator are `Elems` streams over the two lists;
a stream is represented by the list of elements it has yet to yield
(`peek` is `head?`, `next` pops the head).  For each iterator the
one-step `next` function of the source is transliterated, and the full
yield sequence is defined by the natural recursion; a lemma below proves
that the sequence is exactly the trace of repeatedly calling `next`. -/

/-- One call of `<Difference as Iterator>::next` (`src/set.rs` lines
113-139) on the state of the two streams.  The element held by the
`'left` loop is represented as still at the head of the left stream
(popping it is deterministic, so the observable behaviour is
identical). -/
def differenceNext [LinearOrder α] : List α × List α → Option α × (List α × List α)
  | ([], r) => (none, ([], r))
  | (l :: ls, []) => (some l, (ls, []))
  | (l :: ls, r :: rs) =>
    match compare l r with
    | .lt => (some l, (ls, r :: rs))
    | .eq => differenceNext (ls, rs)
    | .gt => differenceNext (l :: ls, rs)
  termination_by st => st.1.length + st.2.length

/-- The full yield sequence of the `Difference` iterator. -/
def differenceTrace [LinearOrder α] : List α → List α → List α
  | [], _ => []
  | l :: ls, [] => l :: differenceTrace ls []
  | l :: ls, r :: rs =>
    match compare l r with
    | .lt => l :: differenceTrace ls (r :: rs)
    | .eq => differenceTrace ls rs
    | .gt => differenceTrace (l :: ls) rs
  termination_by l r => l.length + r.length

/-- One call of `<SymmetricDifference as Iterator>::next` (`src/set.rs`
lines 146-172). -/
def symmDiffNext [LinearOrder α] : List α × List α → Option α × (List α × List α)
  | ([], []) => (none, ([], []))
  | (l :: ls, []) => (some l, (ls, []))
  | ([], r :: rs) => (some r, ([], rs))
  | (l :: ls, r :: rs) =>
    match compare l r with
    | .lt => (some l, (ls, r :: rs))
    | .gt => (some r, (l :: ls, rs))
    | .eq => symmDiffNext (ls, rs)
  termination_by st => st.1.length + st.2.length

/-- The full yield sequence of the `SymmetricDifference` iterator. -/
def symmDiffTrace [LinearOrder α] : List α → List α → List α
  | [], r => r
  | l :: ls, [] => l :: symmDiffTrace ls []
  | l :: ls, r :: rs =>
    match compare l r with
    | .lt => l :: symmDiffTrace ls (r :: rs)
    | .gt => r :: symmDiffTrace (l :: ls) rs
    | .eq => symmDiffTrace ls rs
  termination_by l r => l.length + r.length

/-- One call of `<Intersection as Iterator>::next` (`src/set.rs` lines
179-199): on `Equal` the right copy is consumed and the left copy
yielded. -/
def interNext [LinearOrder α] : List α × List α → Option α × (List α × List α)
  | ([], r) => (none, ([], r))
  | (l :: ls, []) => (none, (l :: ls, []))
  | (l :: ls, r :: rs) =>
    match compare l r with
    | .lt => interNext (ls, r :: rs)
    | .gt => interNext (l :: ls, rs)
    | .eq => (some l, (ls, rs))
  termination_by st => st.1.length + st.2.length

/-- The full yield sequence of the `Intersection` iterator. -/
def interTrace [LinearOrder α] : List α → List α → List α
  | [], _ => []
  | _ :: _, [] => []
  | l :: ls, r :: rs =>
    match compare l r with
    | .lt => interTrace ls (r :: rs)
    | .gt => interTrace (l :: ls) rs
    | .eq => l :: interTrace ls rs
  termination_by l r => l.length + r.length

/-- One call of `<Union as Iterator>::next` (`src/set.rs` lines
206-229): on `Equal` the right copy is consumed and the left copy
yielded. -/
def unionNext [LinearOrder α] : List α × List α → Option α × (List α × List α)
  | ([], []) => (none, ([], []))
  | (l :: ls, []) => (some l, (ls, []))
  | ([], r :: rs) => (some r, ([], rs))
  | (l :: ls, r :: rs) =>
    match compare l r with
    | .lt => (some l, (ls, r :: rs))
    | .gt => (some r, (l :: ls, rs))
    | .eq => (some l, (ls, rs))

/-- The full yield sequence of the `Union` iterator. -/
def unionTrace [LinearOrder α] : List α → List α → List α
  | [], r => r
  | l :: ls, [] => l :: unionTrace ls []
  | l :: ls, r :: rs =>
    match compare l r with
    | .lt => l :: unionTrace ls (r :: rs)
    | .gt => r :: unionTrace (l :: ls) rs
    | .eq => l :: unionTrace ls rs
  termination_by l r => l.length + r.length

/-! ### The Map layer (`src/map.rs`)

`Map<K, V>` wraps `SkipList<KeyValue<K, V>>`; `KeyValue` is a pair and
its `AbstractOrd` implementation (`src/map.rs` lines 158-162) compares
the keys only. -/

/-- The comparator of `impl AbstractOrd for KeyValue`: keys only. -/
def kvCmp [LinearOrder κ] : κ × υ → κ × υ → Ordering :=
  fun a b => compare a.1 b.1

/-- The query used by `Map::get k` (`QWrapper` around the key): compare
the key against the stored entry's key only. -/
def kvQuery [LinearOrder κ] (k : κ) : κ × υ → Ordering :=
  fun kv => compare k kv.1

/-! ### Building states and the abstract (sorted list) view -/

/-- Fold a sequence of insertions (element together with the height
that `random_height` drew for it) from the empty list. -/
def buildL (cmp : α → α → Ordering) (M : List (α × Nat)) : SkipList α :=
  M.foldl (fun s p => (s.insert cmp p.1 p.2).1) (SkipList.new α)

/-- Abstract model of one insertion on the sorted list of elements:
walk to the first element not less than the new one; stop unchanged on
an `Equal` collision, insert before the first greater element. -/
def insertAbs (cmp : α → α → Ordering) (e : α) : List α → List α
  | [] => [e]
  | x :: xs =>
    match cmp e x with
    | .gt => x :: insertAbs cmp e xs
    | .eq => x :: xs
    | .lt => e :: x :: xs

/-- Abstract model of a whole insertion sequence. -/
def absFold (cmp : α → α → Ordering) (M : List (α × Nat)) : List α :=
  M.foldl (fun l p => insertAbs cmp p.1 l) []

/-! ### The representation invariant

`Represents cmp s ids` says that the heap ids `ids`, in bottom-lane
order, are a faithful skip list for the comparator `cmp`: all ids are
allocated with consistent height/lane data, elements are strictly
ascending, and for every level the lane links thread exactly the nodes
whose height reaches that level, in order. -/

/-- Level `ℓ` (counted from the bottom lane, `ℓ = 0`) of the lane array
of `src`: head lane cell `MAX_HEIGHT - 1 - ℓ` when `src` is the head
(`none`), and lane cell `height - 1 - ℓ` of node `p` when `src = some
p`. -/
def slotFor (s : SkipList α) (src : Option Nat) (ℓ : Nat) : Slot :=
  match src with
  | none => .head (MAX_HEIGHT - 1 - ℓ)
  | some p => .node p (heightOf s p - 1 - ℓ)

/-- The value held by level `ℓ` of the lane array of `src`. -/
def laneVal (s : SkipList α) (src : Option Nat) (ℓ : Nat) : Option Nat :=
  readSlot s (slotFor s src ℓ)

/-- The subsequence of `ids` whose nodes participate in level `ℓ`. -/
def subSeq (s : SkipList α) (ids : List Nat) (ℓ : Nat) : List Nat :=
  ids.filter (fun id => ℓ < heightOf s id)

/-- The elements of the listed heap ids, in order. -/
def absElems (s : SkipList α) (ids : List Nat) : List α :=
  ids.filterMap (elemAt s)

/-- Strict ordering between the elements of two heap ids. -/
def idLt (cmp : α → α → Ordering) (s : SkipList α) (i j : Nat) : Prop :=
  ∀ a b, elemAt s i = some a → elemAt s j = some b → cmp a b = .lt

/-- `laneOk f src l`: starting from level slot of `src` (read through
`f`), the chain of successors is exactly `l` and then null. -/
def laneOk (f : Option Nat → Option Nat) : Option Nat → List Nat → Prop
  | src, [] => f src = none
  | src, id :: rest => f src = some id ∧ laneOk f (some id) rest

/-- `laneSeg f src l out`: from `src`, following `f` traverses exactly
`l` and ends at `out` (which is `src` itself when `l` is empty). -/
def laneSeg (f : Option Nat → Option Nat) : Option Nat → List Nat → Option Nat → Prop
  | src, [], out => out = src
  | src, id :: rest, out => f src = some id ∧ laneSeg f (some id) rest out

/-- The end of a segment: the last element of `l`, or `src` when `l` is
empty. -/
def segEnd (src : Option Nat) (l : List Nat) : Option Nat :=
  match l.getLast? with
  | some x => some x
  | none => src

/-- The representation invariant. -/
structure Represents (cmp : α → α → Ordering) (s : SkipList α) (ids : List Nat) : Prop where
  lanesLen : s.lanes.length = MAX_HEIGHT
  valid : ∀ id ∈ ids, ∃ n, s.nodes[id]? = some n ∧
    1 ≤ n.height ∧ n.height ≤ MAX_HEIGHT ∧ n.lanes.length = n.height
  nodup : ids.Nodup
  sorted : ids.Pairwise (idLt cmp s)
  chain : ∀ ℓ, ℓ < MAX_HEIGHT → laneOk (fun src => laneVal s src ℓ) none (subSeq s ids ℓ)

/-- The spot the find-spots walk records for level `ℓ` when the final
split of the list around the insertion point is `pre ++ post`: the
level-`ℓ` slot of the last `pre` node reaching level `ℓ` (or of the
head), holding the first `post` node reaching level `ℓ`. -/
def spotAt (s : SkipList α) (pre post : List Nat) (ℓ : Nat) : Slot × Option Nat :=
  (slotFor s (subSeq s pre ℓ).getLast? ℓ, (subSeq s post ℓ).head?)

/-- The state after the first `m` levels of the splice have been
performed (each level stores the recorded successor into the new node's
lane and then overwrites the predecessor slot — the successful CAS). -/
def spliceWrites (nid hgt : Nat) (sp : List (Slot × Option Nat)) (s : SkipList α) :
    Nat → SkipList α
  | 0 => s
  | m + 1 =>
    let s' := spliceWrites nid hgt sp s m
    let entry := sp.getD m spDflt
    writeSlot (writeSlot s' (.node nid (hgt - 1 - m)) entry.2) entry.1 (some nid)

/-! ### Comparator laws

`AbstractOrd` of the source is a contract (a lawless trait); the claims
presuppose the comparator is a total preorder-style comparison, which is
what `T: Ord` (the blanket impl of `src/ord.rs`) and `KeyValue`'s
key-only comparison provide.  The laws needed are collected in `CmpOk`,
and the compatibility a query type `U: AbstractOrd<T>` must have with
the element order in `QCompat`. -/

structure CmpOk (cmp : α → α → Ordering) : Prop where
  swap : ∀ a b, (cmp a b).swap = cmp b a
  lt_trans : ∀ {a b c}, cmp a b = .lt → cmp b c = .lt → cmp a c = .lt
  eq_lt : ∀ {a b c}, cmp a b = .eq → cmp b c = .lt → cmp a c = .lt
  lt_eq : ∀ {a b c}, cmp a b = .lt → cmp b c = .eq → cmp a c = .lt

structure QCompat (cmp : α → α → Ordering) (q : α → Ordering) : Prop where
  lt_mono : ∀ {a b}, q a = .lt → cmp a b = .lt → q b = .lt
  gt_mono : ∀ {a b}, q b = .gt → cmp a b = .lt → q a = .gt

/-- `qIs s q o id`: the element stored at heap id `id` exists and the
query compares to it with outcome `o`. -/
def qIs (s : SkipList α) (q : α → Ordering) (o : Ordering) (id : Nat) : Prop :=
  ∃ a, elemAt s id = some a ∧ q a = o

/-- `Map::insert` (`src/map.rs` lines 17-19): insert the pair under the
key-only comparator. -/
def Map.insert {κ υ : Type} [LinearOrder κ] (s : SkipList (κ × υ)) (k : κ) (v : υ)
    (hgt : Nat) : SkipList (κ × υ) × Option (κ × υ) :=
  s.insert kvCmp (k, v) hgt

/-- `Map::get_key_value` (`src/map.rs`): look the key up through the
`QWrapper` query. -/
def Map.get {κ υ : Type} [LinearOrder κ] (s : SkipList (κ × υ)) (k : κ) :
    Option (Option Nat) :=
  s.get (kvQuery k)

/-! ## Small helpers -/

theorem getD_set_self {β : Type} (l : List β) (i : Nat) (v d : β) (h : i < l.length) :
    (l.set i v).getD i d = v := by
  simp [List.getD, List.getElem?_set_self, h]

theorem getD_set_ne {β : Type} (l : List β) {i j : Nat} (v d : β) (h : i ≠ j) :
    (l.set i v).getD j d = l.getD j d := by
  simp [List.getD, List.getElem?_set_ne, h]

/-! ## Comparator laws -/

theorem CmpOk.eq_refl {cmp : α → α → Ordering} (h : CmpOk cmp) (a : α) : cmp a a = .eq := by
  have hs := h.swap a a
  cases hc : cmp a a <;> rw [hc] at hs <;> simp [Ordering.swap] at hs

theorem CmpOk.gt_iff {cmp : α → α → Ordering} (h : CmpOk cmp) {a b : α} :
    cmp a b = .gt ↔ cmp b a = .lt := by
  constructor <;> intro hx
  · have := h.swap a b; rw [hx] at this; exact this.symm ▸ rfl
  · have := h.swap b a; rw [hx] at this; exact this.symm ▸ rfl

theorem CmpOk.eq_symm {cmp : α → α → Ordering} (h : CmpOk cmp) {a b : α}
    (hx : cmp a b = .eq) : cmp b a = .eq := by
  have := h.swap a b; rw [hx] at this; exact this.symm ▸ rfl

theorem cmpOk_compare {α : Type} [LinearOrder α] : CmpOk (compare : α → α → Ordering) where
  swap a b := by
    rcases lt_trichotomy a b with h | h | h
    · rw [compare_lt_iff_lt.mpr h, compare_gt_iff_gt.mpr h]; rfl
    · rw [compare_eq_iff_eq.mpr h, compare_eq_iff_eq.mpr h.symm]; rfl
    · rw [compare_gt_iff_gt.mpr h, compare_lt_iff_lt.mpr h]; rfl
  lt_trans h1 h2 :=
    compare_lt_iff_lt.mpr (lt_trans (compare_lt_iff_lt.mp h1) (compare_lt_iff_lt.mp h2))
  eq_lt h1 h2 := by rw [compare_eq_iff_eq.mp h1]; exact h2
  lt_eq h1 h2 := by rw [← compare_eq_iff_eq.mp h2]; exact h1

theorem qcompat_cmp {cmp : α → α → Ordering} (h : CmpOk cmp) (e : α) :
    QCompat cmp (cmp e ·) where
  lt_mono h1 h2 := h.lt_trans h1 h2
  gt_mono {a b} h1 h2 := by
    have hb : cmp b e = .lt := h.gt_iff.mp h1
    exact h.gt_iff.mpr (h.lt_trans h2 hb)

theorem cmpOk_kvCmp {κ υ : Type} [LinearOrder κ] : CmpOk (kvCmp (κ := κ) (υ := υ)) where
  swap a b := cmpOk_compare.swap a.1 b.1
  lt_trans h1 h2 := cmpOk_compare.lt_trans h1 h2
  eq_lt h1 h2 := cmpOk_compare.eq_lt h1 h2
  lt_eq h1 h2 := cmpOk_compare.lt_eq h1 h2

theorem qcompat_kvQuery {κ υ : Type} [LinearOrder κ] (k : κ) :
    QCompat (kvCmp (κ := κ) (υ := υ)) (kvQuery k) where
  lt_mono h1 h2 := cmpOk_compare.lt_trans h1 h2
  gt_mono {a b} h1 h2 := by
    have hb : compare b.1 k = .lt := cmpOk_compare.gt_iff.mp h1
    exact cmpOk_compare.gt_iff.mpr (cmpOk_compare.lt_trans h2 hb)

/-! ## Claim C9: random node height -/

theorem ctzAux_le {k fuel x : Nat} (hf : k < fuel) (hb : x.testBit k = true) :
    ctzAux fuel x ≤ k := by
  induction k generalizing fuel x with
  | zero =>
    have hx : x % 2 = 1 := by simpa [Nat.testBit_zero] using hb
    obtain ⟨n, rfl⟩ : ∃ n, x = n + 1 := ⟨x - 1, by omega⟩
    obtain ⟨f, rfl⟩ : ∃ f, fuel = f + 1 := ⟨fuel - 1, by omega⟩
    simp [ctzAux, hx]
  | succ k ih =>
    have hx0 : x ≠ 0 := by rintro rfl; simp [Nat.zero_testBit] at hb
    obtain ⟨n, rfl⟩ : ∃ n, x = n + 1 := ⟨x - 1, by omega⟩
    obtain ⟨f, rfl⟩ : ∃ f, fuel = f + 1 := ⟨fuel - 1, by omega⟩
    by_cases hpar : (n + 1) % 2 = 1
    · simp [ctzAux, hpar]
    · have hb2 : ((n + 1) / 2).testBit k = true := by
        rw [← Nat.testBit_succ]; exact hb
      have := @ih f ((n + 1) / 2) (by omega) hb2
      simp only [ctzAux, hpar, if_false]
      omega

/-- C9: for every 32-bit word `r`, `random_height` computes exactly
`1 + ctz(r | (1 << (MAX_HEIGHT - 1)))` with `MAX_HEIGHT = 31`, and the
result always lies in `[1, MAX_HEIGHT]`, so a node's lane count fits the
head lane array. -/
theorem c9_random_height (r : Nat) (_hr : r < 2 ^ 32) :
    random_height r = 1 + ctz (r ||| (1 <<< (MAX_HEIGHT - 1))) ∧
    1 ≤ random_height r ∧ random_height r ≤ MAX_HEIGHT := by
  refine ⟨rfl, by simp [random_height], ?_⟩
  have hm : MASK = 2 ^ 30 := by
    show 1 <<< (MAX_HEIGHT - 1) = 2 ^ 30
    rw [Nat.one_shiftLeft]
    norm_num [MAX_HEIGHT]
  have hbit : (r ||| MASK).testBit 30 = true := by
    rw [Nat.testBit_or, hm, Nat.testBit_two_pow_self, Bool.or_true]
  have := @ctzAux_le 30 32 _ (by omega) hbit
  unfold random_height ctz MAX_HEIGHT
  omega

theorem c9_witness :
    5 < 2 ^ 32 ∧
    (random_height 5 = 1 + ctz (5 ||| (1 <<< (MAX_HEIGHT - 1))) ∧
     1 ≤ random_height 5 ∧ random_height 5 ≤ MAX_HEIGHT) :=
  ⟨by norm_num, c9_random_height 5 (by norm_num)⟩

/-! ## Claims C7 and C8: the set-algebra merge iterators

For each iterator, a step theorem shows the declared full-trace function
is exactly the stream obtained by iterating the transliterated `next`,
and the main lemmas characterise the trace on sorted, duplicate-free
inputs. -/

theorem differenceTrace_step {α : Type} [LinearOrder α] (l r : List α) :
    differenceTrace l r =
      (match differenceNext (l, r) with
       | (none, _) => []
       | (some x, st) => x :: differenceTrace st.1 st.2) := by
  induction l, r using differenceTrace.induct with
  | case1 r => simp [differenceTrace, differenceNext]
  | case2 l ls ih => simp [differenceTrace, differenceNext]
  | case3 l ls r rs hc ih => simp [differenceTrace, differenceNext, hc]
  | case4 l ls r rs hc ih =>
    simp only [differenceTrace, differenceNext, hc]
    exact ih
  | case5 l ls r rs hc ih =>
    simp only [differenceTrace, differenceNext, hc]
    exact ih

theorem differenceTrace_eq_filter {α : Type} [LinearOrder α] (l r : List α) :
    l.Pairwise (· < ·) → r.Pairwise (· < ·) →
    differenceTrace l r = l.filter (fun x => decide (x ∉ r)) := by
  induction l, r using differenceTrace.induct with
  | case1 r => intro _ _; simp [differenceTrace]
  | case2 l ls ih =>
    intro hl _
    rw [List.pairwise_cons] at hl
    simp [differenceTrace, ih hl.2 List.Pairwise.nil]
  | case3 l ls r rs hc ih =>
    intro hl hr
    rw [List.pairwise_cons] at hl
    have hlr : l < r := compare_lt_iff_lt.mp hc
    have hnot : l ∉ r :: rs := by
      intro hmem
      rcases List.mem_cons.mp hmem with rfl | hmem
      · exact absurd hlr (lt_irrefl _)
      · exact absurd (hlr.trans (List.rel_of_pairwise_cons hr hmem)) (lt_irrefl _)
    simp only [differenceTrace, hc]
    rw [ih hl.2 hr, List.filter_cons]
    simp [hnot]
  | case4 l ls r rs hc ih =>
    intro hl hr
    have hlr : l = r := compare_eq_iff_eq.mp hc
    subst hlr
    rw [List.pairwise_cons] at hl
    rw [List.pairwise_cons] at hr
    simp only [differenceTrace, hc]
    rw [ih hl.2 hr.2, List.filter_cons]
    have hdrop : (decide (l ∉ l :: rs)) = false := by simp
    rw [hdrop]
    simp only [Bool.false_eq_true, if_false]
    refine List.filter_congr ?_
    intro x hx
    have : l < x := hl.1 x hx
    simp [List.mem_cons, ne_of_gt this]
  | case5 l ls r rs hc ih =>
    intro hl hr
    have hrl : r < l := compare_gt_iff_gt.mp hc
    rw [List.pairwise_cons] at hr
    simp only [differenceTrace, hc]
    rw [ih hl hr.2]
    refine (List.filter_congr ?_).symm
    intro x hx
    have hrx : r < x := by
      rcases List.mem_cons.mp hx with rfl | hmem
      · exact hrl
      · exact hrl.trans (List.rel_of_pairwise_cons hl hmem)
    simp [List.mem_cons, ne_of_gt hrx]

/-- C7: on strictly ascending duplicate-free inputs the `Difference`
iterator of `src/set.rs` (whose merge step is `differenceNext` /
`differenceTrace`) yields exactly the elements of the left stream that
compare `Equal` to no element of the right stream, in ascending
order. -/
theorem c7_difference {α : Type} [LinearOrder α] (l r : List α)
    (hl : l.Pairwise (· < ·)) (hr : r.Pairwise (· < ·)) :
    differenceTrace l r = l.filter (fun x => decide (x ∉ r)) ∧
    (differenceTrace l r).Pairwise (· < ·) ∧
    (∀ x, x ∈ differenceTrace l r ↔ x ∈ l ∧ ∀ y ∈ r, compare x y ≠ .eq) := by
  have hf := differenceTrace_eq_filter l r hl hr
  refine ⟨hf, ?_, ?_⟩
  · rw [hf]; exact hl.sublist (List.filter_sublist l)
  · intro x
    rw [hf]
    simp only [List.mem_filter, decide_eq_true_eq]
    constructor
    · rintro ⟨hxl, hxr⟩
      refine ⟨hxl, fun y hy hcmp => hxr ?_⟩
      rw [compare_eq_iff_eq.mp hcmp]; exact hy
    · rintro ⟨hxl, hall⟩
      exact ⟨hxl, fun hmem => hall x hmem (compare_eq_iff_eq.mpr rfl)⟩

theorem c7_witness :
    ([0, 1, 2, 3] : List ℕ).Pairwise (· < ·) ∧ ([1, 3, 5] : List ℕ).Pairwise (· < ·) ∧
    (differenceTrace [0, 1, 2, 3] [1, 3, 5] =
      ([0, 1, 2, 3] : List ℕ).filter (fun x => decide (x ∉ [1, 3, 5])) ∧
    (differenceTrace [0, 1, 2, 3] [1, 3, 5]).Pairwise (· < ·) ∧
    (∀ x, x ∈ differenceTrace ([0, 1, 2, 3] : List ℕ) [1, 3, 5] ↔
      x ∈ [0, 1, 2, 3] ∧ ∀ y ∈ [1, 3, 5], compare x y ≠ .eq)) :=
  ⟨by decide, by decide, c7_difference [0, 1, 2, 3] [1, 3, 5] (by decide) (by decide)⟩

theorem unionTrace_step {α : Type} [LinearOrder α] (l r : List α) :
    unionTrace l r =
      (match unionNext (l, r) with
       | (none, _) => []
       | (some x, st) => x :: unionTrace st.1 st.2) := by
  induction l, r using unionTrace.induct with
  | case1 r => cases r <;> simp [unionTrace, unionNext]
  | case2 l ls ih => simp [unionTrace, unionNext]
  | case3 l ls r rs hc ih => simp [unionTrace, unionNext, hc]
  | case4 l ls r rs hc ih => simp [unionTrace, unionNext, hc]
  | case5 l ls r rs hc ih => simp [unionTrace, unionNext, hc]

theorem interTrace_step {α : Type} [LinearOrder α] (l r : List α) :
    interTrace l r =
      (match interNext (l, r) with
       | (none, _) => []
       | (some x, st) => x :: interTrace st.1 st.2) := by
  induction l, r using interTrace.induct with
  | case1 r => simp [interTrace, interNext]
  | case2 l ls => simp [interTrace, interNext]
  | case3 l ls r rs hc ih =>
    simp only [interTrace, interNext, hc]
    exact ih
  | case4 l ls r rs hc ih =>
    simp only [interTrace, interNext, hc]
    exact ih
  | case5 l ls r rs hc ih => simp [interTrace, interNext, hc]

theorem symmDiffTrace_step {α : Type} [LinearOrder α] (l r : List α) :
    symmDiffTrace l r =
      (match symmDiffNext (l, r) with
       | (none, _) => []
       | (some x, st) => x :: symmDiffTrace st.1 st.2) := by
  induction l, r using symmDiffTrace.induct with
  | case1 r => cases r <;> simp [symmDiffTrace, symmDiffNext]
  | case2 l ls ih => simp [symmDiffTrace, symmDiffNext]
  | case3 l ls r rs hc ih => simp [symmDiffTrace, symmDiffNext, hc]
  | case4 l ls r rs hc ih => simp [symmDiffTrace, symmDiffNext, hc]
  | case5 l ls r rs hc ih =>
    simp only [symmDiffTrace, symmDiffNext, hc]
    exact ih

theorem mem_unionTrace {α : Type} [LinearOrder α] (l r : List α) :
    ∀ x, x ∈ unionTrace l r ↔ x ∈ l ∨ x ∈ r := by
  induction l, r using unionTrace.induct with
  | case1 r => simp [unionTrace]
  | case2 l ls ih => intro x; simp [unionTrace, ih x]
  | case3 l ls r rs hc ih =>
    intro x
    simp only [unionTrace, hc, List.mem_cons, ih x]
    tauto
  | case4 l ls r rs hc ih =>
    intro x
    simp only [unionTrace, hc, List.mem_cons, ih x]
    tauto
  | case5 l ls r rs hc ih =>
    intro x
    have hlr : l = r := compare_eq_iff_eq.mp hc
    subst hlr
    simp only [unionTrace, hc, List.mem_cons, ih x]
    tauto

theorem mem_interTrace {α : Type} [LinearOrder α] (l r : List α) :
    l.Pairwise (· < ·) → r.Pairwise (· < ·) →
    ∀ x, x ∈ interTrace l r ↔ x ∈ l ∧ x ∈ r := by
  induction l, r using interTrace.induct with
  | case1 r => intro _ _ x; simp [interTrace]
  | case2 l ls => intro _ _ x; simp [interTrace]
  | case3 l ls r rs hc ih =>
    intro hl hr x
    have hlr : l < r := compare_lt_iff_lt.mp hc
    have hlnot : l ∉ r :: rs := by
      intro hmem
      rcases List.mem_cons.mp hmem with rfl | hmem
      · exact absurd hlr (lt_irrefl _)
      · exact absurd (hlr.trans (List.rel_of_pairwise_cons hr hmem)) (lt_irrefl _)
    rw [List.pairwise_cons] at hl
    simp only [interTrace, hc, ih hl.2 hr x, List.mem_cons]
    constructor
    · rintro ⟨h1, h2⟩; exact ⟨Or.inr h1, h2⟩
    · rintro ⟨h1 | h1, h2⟩
      · subst h1; exact absurd (List.mem_cons.mpr h2) hlnot
      · exact ⟨h1, h2⟩
  | case4 l ls r rs hc ih =>
    intro hl hr x
    have hrl : r < l := compare_gt_iff_gt.mp hc
    have hrnot : r ∉ l :: ls := by
      intro hmem
      rcases List.mem_cons.mp hmem with rfl | hmem
      · exact absurd hrl (lt_irrefl _)
      · exact absurd (hrl.trans (List.rel_of_pairwise_cons hl hmem)) (lt_irrefl _)
    rw [List.pairwise_cons] at hr
    simp only [interTrace, hc, ih hl hr.2 x, List.mem_cons]
    constructor
    · rintro ⟨h1, h2⟩; exact ⟨h1, Or.inr h2⟩
    · rintro ⟨h1, h2 | h2⟩
      · subst h2; exact absurd (List.mem_cons.mpr h1) hrnot
      · exact ⟨h1, h2⟩
  | case5 l ls r rs hc ih =>
    intro hl hr x
    have hlr : l = r := compare_eq_iff_eq.mp hc
    subst hlr
    rw [List.pairwise_cons] at hl
    rw [List.pairwise_cons] at hr
    simp only [interTrace, hc, List.mem_cons, ih hl.2 hr.2 x]
    constructor
    · rintro (rfl | ⟨h1, h2⟩)
      · exact ⟨Or.inl rfl, Or.inl rfl⟩
      · exact ⟨Or.inr h1, Or.inr h2⟩
    · rintro ⟨h1 | h1, h2 | h2⟩
      · exact Or.inl h1
      · exact Or.inl h1
      · subst h2; exact absurd (hl.1 x h1) (lt_irrefl _)
      · exact Or.inr ⟨h1, h2⟩

theorem mem_symmDiffTrace {α : Type} [LinearOrder α] (l r : List α) :
    l.Pairwise (· < ·) → r.Pairwise (· < ·) →
    ∀ x, x ∈ symmDiffTrace l r ↔ (x ∈ l ∧ x ∉ r) ∨ (x ∈ r ∧ x ∉ l) := by
  induction l, r using symmDiffTrace.induct with
  | case1 r => intro _ _ x; simp [symmDiffTrace]
  | case2 l ls ih =>
    intro hl _ x
    rw [List.pairwise_cons] at hl
    simp [symmDiffTrace, ih hl.2 List.Pairwise.nil x]
  | case3 l ls r rs hc ih =>
    intro hl hr x
    have hlr : l < r := compare_lt_iff_lt.mp hc
    have hf1 : x = l → ¬(x = r ∨ x ∈ rs) := by
      rintro rfl (rfl | h)
      · exact absurd hlr (lt_irrefl _)
      · exact absurd (hlr.trans (List.rel_of_pairwise_cons hr h)) (lt_irrefl _)
    rw [List.pairwise_cons] at hl
    simp only [symmDiffTrace, hc, List.mem_cons, ih hl.2 hr x]
    tauto
  | case4 l ls r rs hc ih =>
    intro hl hr x
    have hrl : r < l := compare_gt_iff_gt.mp hc
    have hf1 : x = r → ¬(x = l ∨ x ∈ ls) := by
      rintro rfl (rfl | h)
      · exact absurd hrl (lt_irrefl _)
      · exact absurd (hrl.trans (List.rel_of_pairwise_cons hl h)) (lt_irrefl _)
    rw [List.pairwise_cons] at hr
    simp only [symmDiffTrace, hc, List.mem_cons, ih hl hr.2 x]
    tauto
  | case5 l ls r rs hc ih =>
    intro hl hr x
    have hlr : l = r := compare_eq_iff_eq.mp hc
    subst hlr
    rw [List.pairwise_cons] at hl
    rw [List.pairwise_cons] at hr
    have hf1 : x ∈ ls → ¬ x = l := by
      intro h hx
      exact absurd (hl.1 x h) (by rw [hx]; exact lt_irrefl l)
    have hf2 : x ∈ rs → ¬ x = l := by
      intro h hx
      exact absurd (hr.1 x h) (by rw [hx]; exact lt_irrefl l)
    simp only [symmDiffTrace, hc, List.mem_cons, ih hl.2 hr.2 x]
    tauto

theorem pairwise_unionTrace {α : Type} [LinearOrder α] (l r : List α) :
    l.Pairwise (· < ·) → r.Pairwise (· < ·) → (unionTrace l r).Pairwise (· < ·) := by
  induction l, r using unionTrace.induct with
  | case1 r => intro _ hr; simpa [unionTrace] using hr
  | case2 l ls ih =>
    intro hl _
    rw [List.pairwise_cons] at hl
    rw [show unionTrace (l :: ls) ([] : List α) = l :: unionTrace ls [] from by
      simp [unionTrace]]
    rw [List.pairwise_cons]
    refine ⟨?_, ih hl.2 List.Pairwise.nil⟩
    intro z hz
    rcases (mem_unionTrace ls [] z).mp hz with hz | hz
    · exact hl.1 z hz
    · simp at hz
  | case3 l ls r rs hc ih =>
    intro hl hr
    have hlr : l < r := compare_lt_iff_lt.mp hc
    rw [List.pairwise_cons] at hl
    rw [show unionTrace (l :: ls) (r :: rs) = l :: unionTrace ls (r :: rs) from by
      simp [unionTrace, hc]]
    rw [List.pairwise_cons]
    refine ⟨?_, ih hl.2 hr⟩
    intro z hz
    rcases (mem_unionTrace ls (r :: rs) z).mp hz with hz | hz
    · exact hl.1 z hz
    · rcases List.mem_cons.mp hz with rfl | hz
      · exact hlr
      · exact hlr.trans (List.rel_of_pairwise_cons hr hz)
  | case4 l ls r rs hc ih =>
    intro hl hr
    have hrl : r < l := compare_gt_iff_gt.mp hc
    rw [List.pairwise_cons] at hr
    rw [show unionTrace (l :: ls) (r :: rs) = r :: unionTrace (l :: ls) rs from by
      simp [unionTrace, hc]]
    rw [List.pairwise_cons]
    refine ⟨?_, ih hl hr.2⟩
    intro z hz
    rcases (mem_unionTrace (l :: ls) rs z).mp hz with hz | hz
    · rcases List.mem_cons.mp hz with rfl | hz
      · exact hrl
      · exact hrl.trans (List.rel_of_pairwise_cons hl hz)
    · exact hr.1 z hz
  | case5 l ls r rs hc ih =>
    intro hl hr
    have hlr : l = r := compare_eq_iff_eq.mp hc
    subst hlr
    rw [List.pairwise_cons] at hl
    rw [List.pairwise_cons] at hr
    rw [show unionTrace (l :: ls) (l :: rs) = l :: unionTrace ls rs from by
      simp [unionTrace, hc]]
    rw [List.pairwise_cons]
    refine ⟨?_, ih hl.2 hr.2⟩
    intro z hz
    rcases (mem_unionTrace ls rs z).mp hz with hz | hz
    · exact hl.1 z hz
    · exact hr.1 z hz

theorem pairwise_interTrace {α : Type} [LinearOrder α] (l r : List α) :
    l.Pairwise (· < ·) → r.Pairwise (· < ·) → (interTrace l r).Pairwise (· < ·) := by
  induction l, r using interTrace.induct with
  | case1 r => intro _ _; simp [interTrace]
  | case2 l ls => intro _ _; simp [interTrace]
  | case3 l ls r rs hc ih =>
    intro hl hr
    rw [List.pairwise_cons] at hl
    rw [show interTrace (l :: ls) (r :: rs) = interTrace ls (r :: rs) from by
      simp [interTrace, hc]]
    exact ih hl.2 hr
  | case4 l ls r rs hc ih =>
    intro hl hr
    rw [List.pairwise_cons] at hr
    rw [show interTrace (l :: ls) (r :: rs) = interTrace (l :: ls) rs from by
      simp [interTrace, hc]]
    exact ih hl hr.2
  | case5 l ls r rs hc ih =>
    intro hl hr
    have hlr : l = r := compare_eq_iff_eq.mp hc
    subst hlr
    rw [List.pairwise_cons] at hl
    rw [List.pairwise_cons] at hr
    rw [show interTrace (l :: ls) (l :: rs) = l :: interTrace ls rs from by
      simp [interTrace, hc]]
    rw [List.pairwise_cons]
    refine ⟨?_, ih hl.2 hr.2⟩
    intro z hz
    exact hl.1 z ((mem_interTrace ls rs hl.2 hr.2 z).mp hz).1

theorem pairwise_symmDiffTrace {α : Type} [LinearOrder α] (l r : List α) :
    l.Pairwise (· < ·) → r.Pairwise (· < ·) → (symmDiffTrace l r).Pairwise (· < ·) := by
  induction l, r using symmDiffTrace.induct with
  | case1 r => intro _ hr; simpa [symmDiffTrace] using hr
  | case2 l ls ih =>
    intro hl _
    rw [List.pairwise_cons] at hl
    rw [show symmDiffTrace (l :: ls) ([] : List α) = l :: symmDiffTrace ls [] from by
      simp [symmDiffTrace]]
    rw [List.pairwise_cons]
    refine ⟨?_, ih hl.2 List.Pairwise.nil⟩
    intro z hz
    rcases (mem_symmDiffTrace ls [] hl.2 List.Pairwise.nil z).mp hz with ⟨hz, -⟩ | ⟨hz, -⟩
    · exact hl.1 z hz
    · simp at hz
  | case3 l ls r rs hc ih =>
    intro hl hr
    have hlr : l < r := compare_lt_iff_lt.mp hc
    rw [List.pairwise_cons] at hl
    rw [show symmDiffTrace (l :: ls) (r :: rs) = l :: symmDiffTrace ls (r :: rs) from by
      simp [symmDiffTrace, hc]]
    rw [List.pairwise_cons]
    refine ⟨?_, ih hl.2 hr⟩
    intro z hz
    rcases (mem_symmDiffTrace ls (r :: rs) hl.2 hr z).mp hz with ⟨hz, -⟩ | ⟨hz, -⟩
    · exact hl.1 z hz
    · rcases List.mem_cons.mp hz with rfl | hz
      · exact hlr
      · exact hlr.trans (List.rel_of_pairwise_cons hr hz)
  | case4 l ls r rs hc ih =>
    intro hl hr
    have hrl : r < l := compare_gt_iff_gt.mp hc
    rw [List.pairwise_cons] at hr
    rw [show symmDiffTrace (l :: ls) (r :: rs) = r :: symmDiffTrace (l :: ls) rs from by
      simp [symmDiffTrace, hc]]
    rw [List.pairwise_cons]
    refine ⟨?_, ih hl hr.2⟩
    intro z hz
    rcases (mem_symmDiffTrace (l :: ls) rs hl hr.2 z).mp hz with ⟨hz, -⟩ | ⟨hz, -⟩
    · rcases List.mem_cons.mp hz with rfl | hz
      · exact hrl
      · exact hrl.trans (List.rel_of_pairwise_cons hl hz)
    · exact hr.1 z hz
  | case5 l ls r rs hc ih =>
    intro hl hr
    have hlr : l = r := compare_eq_iff_eq.mp hc
    subst hlr
    rw [List.pairwise_cons] at hl
    rw [List.pairwise_cons] at hr
    rw [show symmDiffTrace (l :: ls) (l :: rs) = symmDiffTrace ls rs from by
      simp [symmDiffTrace, hc]]
    exact ih hl.2 hr.2

/-- C8: on strictly ascending duplicate-free inputs, `Union`,
`Intersection` and `SymmetricDifference` of `src/set.rs` each yield the
strictly ascending enumeration of the corresponding mathematical set
operation on the two input sets: membership in the union trace is
membership in either input, in the intersection trace membership in
both, and in the symmetric-difference trace membership in exactly one. -/
theorem c8_set_algebra {α : Type} [LinearOrder α] (l r : List α)
    (hl : l.Pairwise (· < ·)) (hr : r.Pairwise (· < ·)) :
    ((unionTrace l r).Pairwise (· < ·) ∧
      (∀ x, x ∈ unionTrace l r ↔ x ∈ l ∨ x ∈ r)) ∧
    ((interTrace l r).Pairwise (· < ·) ∧
      (∀ x, x ∈ interTrace l r ↔ x ∈ l ∧ x ∈ r)) ∧
    ((symmDiffTrace l r).Pairwise (· < ·) ∧
      (∀ x, x ∈ symmDiffTrace l r ↔ (x ∈ l ∧ x ∉ r) ∨ (x ∈ r ∧ x ∉ l))) :=
  ⟨⟨pairwise_unionTrace l r hl hr, mem_unionTrace l r⟩,
   ⟨pairwise_interTrace l r hl hr, mem_interTrace l r hl hr⟩,
   ⟨pairwise_symmDiffTrace l r hl hr, mem_symmDiffTrace l r hl hr⟩⟩

theorem c8_witness :
    ([0, 2, 4] : List ℕ).Pairwise (· < ·) ∧ ([1, 2, 3] : List ℕ).Pairwise (· < ·) ∧
    (((unionTrace [0, 2, 4] [1, 2, 3]).Pairwise (· < ·) ∧
       (∀ x, x ∈ unionTrace ([0, 2, 4] : List ℕ) [1, 2, 3] ↔ x ∈ [0, 2, 4] ∨ x ∈ [1, 2, 3])) ∧
     ((interTrace [0, 2, 4] [1, 2, 3]).Pairwise (· < ·) ∧
       (∀ x, x ∈ interTrace ([0, 2, 4] : List ℕ) [1, 2, 3] ↔ x ∈ [0, 2, 4] ∧ x ∈ [1, 2, 3])) ∧
     ((symmDiffTrace [0, 2, 4] [1, 2, 3]).Pairwise (· < ·) ∧
       (∀ x, x ∈ symmDiffTrace ([0, 2, 4] : List ℕ) [1, 2, 3] ↔
         (x ∈ [0, 2, 4] ∧ x ∉ [1, 2, 3]) ∨ (x ∈ [1, 2, 3] ∧ x ∉ [0, 2, 4])))) :=
  ⟨by decide, by decide, c8_set_algebra [0, 2, 4] [1, 2, 3] (by decide) (by decide)⟩

/-! ## Frame lemmas for the heap model -/

theorem replicate_getD_none {β : Type} (n i : Nat) :
    (List.replicate n (none : Option β)).getD i none = none := by
  simp only [List.getD]
  rcases Nat.lt_or_ge i n with h | h
  · simp [List.getElem?_replicate, h]
  · simp [List.getElem?_replicate, Nat.not_lt.mpr h]

theorem nodes_length_writeSlot (s : SkipList α) (sl : Slot) (v : Option Nat) :
    (writeSlot s sl v).nodes.length = s.nodes.length := by
  cases sl with
  | head i => rfl
  | node id i =>
    simp only [writeSlot]
    cases h : s.nodes[id]? with
    | none => rfl
    | some n => simp

theorem lanes_length_writeSlot (s : SkipList α) (sl : Slot) (v : Option Nat) :
    (writeSlot s sl v).lanes.length = s.lanes.length := by
  cases sl with
  | head i => simp [writeSlot]
  | node id i =>
    simp only [writeSlot]
    cases h : s.nodes[id]? with
    | none => rfl
    | some n => rfl

theorem heightOf_writeSlot (s : SkipList α) (sl : Slot) (v : Option Nat) (id : Nat) :
    heightOf (writeSlot s sl v) id = heightOf s id := by
  cases sl with
  | head i => rfl
  | node id' i =>
    simp only [writeSlot]
    cases h : s.nodes[id']? with
    | none => rfl
    | some n =>
      have hlen : id' < s.nodes.length := by
        by_contra hge
        rw [List.getElem?_eq_none (Nat.le_of_not_lt hge)] at h
        exact Option.noConfusion h
      by_cases hid : id' = id
      · subst hid
        simp only [heightOf, List.getElem?_set_self hlen, h]
      · simp only [heightOf, List.getElem?_set_ne hid]

theorem elemAt_writeSlot (s : SkipList α) (sl : Slot) (v : Option Nat) (id : Nat) :
    elemAt (writeSlot s sl v) id = elemAt s id := by
  cases sl with
  | head i => rfl
  | node id' i =>
    simp only [writeSlot]
    cases h : s.nodes[id']? with
    | none => rfl
    | some n =>
      have hlen : id' < s.nodes.length := by
        by_contra hge
        rw [List.getElem?_eq_none (Nat.le_of_not_lt hge)] at h
        exact Option.noConfusion h
      by_cases hid : id' = id
      · subst hid
        simp only [elemAt, elemOf, List.getElem?_set_self hlen, h]
        rfl
      · simp only [elemAt, elemOf, List.getElem?_set_ne hid]

theorem readSlot_writeSlot_ne (s : SkipList α) {sl sl' : Slot} (v : Option Nat)
    (h : sl ≠ sl') : readSlot (writeSlot s sl v) sl' = readSlot s sl' := by
  cases sl with
  | head i =>
    cases sl' with
    | head j =>
      have hij : i ≠ j := fun he => h (by rw [he])
      simp only [writeSlot, readSlot]
      exact getD_set_ne _ _ _ hij
    | node id' j => rfl
  | node id i =>
    cases sl' with
    | head j =>
      simp only [writeSlot]
      cases s.nodes[id]? with
      | none => rfl
      | some n => rfl
    | node id' j =>
      simp only [writeSlot]
      cases hn : s.nodes[id]? with
      | none => rfl
      | some n =>
        have hlen : id < s.nodes.length := by
          by_contra hge
          rw [List.getElem?_eq_none (Nat.le_of_not_lt hge)] at hn
          exact Option.noConfusion hn
        by_cases hid : id = id'
        · subst hid
          have hij : i ≠ j := fun he => h (by rw [he])
          simp only [readSlot, List.getElem?_set_self hlen, hn]
          exact getD_set_ne _ _ _ hij
        · simp only [readSlot, List.getElem?_set_ne hid]

theorem readSlot_writeSlot_head (s : SkipList α) (i : Nat) (v : Option Nat)
    (h : i < s.lanes.length) : readSlot (writeSlot s (.head i) v) (.head i) = v := by
  simp only [writeSlot, readSlot]
  exact getD_set_self _ _ _ _ h

theorem readSlot_writeSlot_node (s : SkipList α) {id : Nat} {n : Node α} (i : Nat)
    (v : Option Nat) (hn : s.nodes[id]? = some n) (h : i < n.lanes.length) :
    readSlot (writeSlot s (.node id i) v) (.node id i) = v := by
  have hlen : id < s.nodes.length := by
    by_contra hge
    rw [List.getElem?_eq_none (Nat.le_of_not_lt hge)] at hn
    exact Option.noConfusion hn
  simp only [writeSlot, hn, readSlot, List.getElem?_set_self hlen]
  exact getD_set_self _ _ _ _ h

theorem nodes_allocNode (s : SkipList α) (e : α) (hgt : Nat) :
    (allocNode s e hgt).1.nodes = s.nodes ++ [⟨e, hgt, List.replicate hgt none⟩] := rfl

theorem lanes_allocNode (s : SkipList α) (e : α) (hgt : Nat) :
    (allocNode s e hgt).1.lanes = s.lanes := rfl

theorem getElem?_allocNode (s : SkipList α) (e : α) (hgt : Nat) {id : Nat}
    (h : id < s.nodes.length) : (allocNode s e hgt).1.nodes[id]? = s.nodes[id]? := by
  simp only [allocNode]
  exact List.getElem?_append_left h

theorem getElem?_allocNode_self (s : SkipList α) (e : α) (hgt : Nat) :
    (allocNode s e hgt).1.nodes[s.nodes.length]? =
      some ⟨e, hgt, List.replicate hgt none⟩ := by
  simp only [allocNode]
  exact List.getElem?_concat_length _ _

theorem readSlot_allocNode (s : SkipList α) (e : α) (hgt : Nat) {sl : Slot}
    (h : ∀ id i, sl = .node id i → id < s.nodes.length) :
    readSlot (allocNode s e hgt).1 sl = readSlot s sl := by
  cases sl with
  | head i => rfl
  | node id i =>
    simp only [readSlot]
    rw [getElem?_allocNode s e hgt (h id i rfl)]

theorem heightOf_allocNode (s : SkipList α) (e : α) (hgt : Nat) {id : Nat}
    (h : id < s.nodes.length) : heightOf (allocNode s e hgt).1 id = heightOf s id := by
  simp only [heightOf]
  rw [getElem?_allocNode s e hgt h]

theorem elemAt_allocNode (s : SkipList α) (e : α) (hgt : Nat) {id : Nat}
    (h : id < s.nodes.length) : elemAt (allocNode s e hgt).1 id = elemAt s id := by
  simp only [elemAt, elemOf]
  rw [getElem?_allocNode s e hgt h]

theorem heightOf_allocNode_self (s : SkipList α) (e : α) (hgt : Nat) :
    heightOf (allocNode s e hgt).1 s.nodes.length = hgt := by
  simp only [heightOf]
  rw [getElem?_allocNode_self]

theorem elemAt_allocNode_self (s : SkipList α) (e : α) (hgt : Nat) :
    elemAt (allocNode s e hgt).1 s.nodes.length = some e := by
  simp only [elemAt, elemOf]
  rw [getElem?_allocNode_self]
  rfl

/-! ## Lane chains -/

theorem laneOk_head? {f : Option Nat → Option Nat} {src : Option Nat} {l : List Nat}
    (h : laneOk f src l) : f src = l.head? := by
  cases l with
  | nil => exact h
  | cons x xs => exact h.1

theorem segEnd_nil (src : Option Nat) : segEnd src [] = src := rfl

theorem segEnd_cons (src : Option Nat) (x : Nat) (l : List Nat) :
    segEnd src (x :: l) = segEnd (some x) l := by
  cases l with
  | nil => rfl
  | cons y ys =>
    cases h : (y :: ys).getLast? with
    | none =>
      exfalso
      have h0 := List.getLast?_eq_none_iff.mp h
      simp at h0
    | some z => simp [segEnd, List.getLast?_cons_cons, h]

theorem laneSeg_end {f : Option Nat → Option Nat} :
    ∀ {a : List Nat} {src out : Option Nat}, laneSeg f src a out → out = segEnd src a := by
  intro a
  induction a with
  | nil => intro src out h; exact h
  | cons x xs ih =>
    intro src out h
    rw [segEnd_cons]
    exact ih h.2

theorem laneOk_append {f : Option Nat → Option Nat} (a b : List Nat) :
    ∀ src, laneOk f src (a ++ b) ↔
      (laneSeg f src a (segEnd src a) ∧ laneOk f (segEnd src a) b) := by
  induction a with
  | nil => intro src; simp [laneSeg, segEnd]
  | cons x xs ih =>
    intro src
    rw [List.cons_append]
    show (f src = some x ∧ laneOk f (some x) (xs ++ b)) ↔ _
    rw [ih (some x), segEnd_cons]
    show _ ↔ ((f src = some x ∧ laneSeg f (some x) xs (segEnd (some x) xs)) ∧ _)
    tauto

theorem laneOk_congr {f g : Option Nat → Option Nat} :
    ∀ {b : List Nat} {src : Option Nat}, laneOk f src b →
      (∀ x, (x = src ∨ ∃ y ∈ b, x = some y) → g x = f x) → laneOk g src b := by
  intro b
  induction b with
  | nil =>
    intro src h hg
    show g src = none
    rw [hg src (Or.inl rfl)]
    exact h
  | cons x xs ih =>
    intro src h hg
    refine ⟨by rw [hg src (Or.inl rfl)]; exact h.1, ?_⟩
    refine ih h.2 ?_
    intro z hz
    refine hg z ?_
    rcases hz with rfl | ⟨y, hy, rfl⟩
    · exact Or.inr ⟨x, List.mem_cons_self x xs, rfl⟩
    · exact Or.inr ⟨y, List.mem_cons_of_mem x hy, rfl⟩

/-! ## Basic consequences of the representation invariant -/

theorem represents_new (cmp : α → α → Ordering) : Represents cmp (SkipList.new α) [] where
  lanesLen := by simp [SkipList.new]
  valid := by intro id h; simp at h
  nodup := List.nodup_nil
  sorted := List.Pairwise.nil
  chain := by
    intro ℓ hℓ
    show laneVal (SkipList.new α) none ℓ = none
    simp only [laneVal, slotFor, readSlot, SkipList.new]
    exact replicate_getD_none _ _

theorem Represents.mem_lt_length {cmp : α → α → Ordering} {s : SkipList α}
    {ids : List Nat} (R : Represents cmp s ids) {id : Nat} (h : id ∈ ids) :
    id < s.nodes.length := by
  obtain ⟨n, hn, -⟩ := R.valid id h
  by_contra hge
  rw [List.getElem?_eq_none (Nat.le_of_not_lt hge)] at hn
  exact Option.noConfusion hn

theorem Represents.length_le {cmp : α → α → Ordering} {s : SkipList α}
    {ids : List Nat} (R : Represents cmp s ids) : ids.length ≤ s.nodes.length := by
  classical
  have hsub : ids.toFinset ⊆ Finset.range s.nodes.length := by
    intro x hx
    rw [List.mem_toFinset] at hx
    exact Finset.mem_range.mpr (R.mem_lt_length hx)
  have hcard := Finset.card_le_card hsub
  rwa [List.toFinset_card_of_nodup R.nodup, Finset.card_range] at hcard

theorem Represents.height_bounds {cmp : α → α → Ordering} {s : SkipList α}
    {ids : List Nat} (R : Represents cmp s ids) {id : Nat} (h : id ∈ ids) :
    1 ≤ heightOf s id ∧ heightOf s id ≤ MAX_HEIGHT := by
  obtain ⟨n, hn, h1, h2, -⟩ := R.valid id h
  simp only [heightOf, hn]
  exact ⟨h1, h2⟩

theorem Represents.elem_exists {cmp : α → α → Ordering} {s : SkipList α}
    {ids : List Nat} (R : Represents cmp s ids) {id : Nat} (h : id ∈ ids) :
    ∃ a, elemAt s id = some a := by
  obtain ⟨n, hn, -⟩ := R.valid id h
  exact ⟨n.elem, by simp [elemAt, elemOf, hn]⟩

theorem Represents.laneVal_split {cmp : α → α → Ordering} {s : SkipList α}
    {ids : List Nat} (R : Represents cmp s ids) {ℓ : Nat} (hℓ : ℓ < MAX_HEIGHT)
    {pre post : List Nat} (hsplit : ids = pre ++ post) :
    laneVal s (segEnd none (subSeq s pre ℓ)) ℓ = (subSeq s post ℓ).head? := by
  have hc := R.chain ℓ hℓ
  rw [hsplit] at hc
  rw [show subSeq s (pre ++ post) ℓ = subSeq s pre ℓ ++ subSeq s post ℓ from
    List.filter_append _ _] at hc
  exact laneOk_head? ((laneOk_append _ _ none).mp hc).2

theorem getLast?_filter_of_pred {l : List Nat} {p : Nat} (h : l.getLast? = some p)
    (pd : Nat → Bool) (hp : pd p = true) : (l.filter pd).getLast? = some p := by
  obtain ⟨l', rfl⟩ := List.getLast?_eq_some_iff.mp h
  rw [List.filter_append]
  simp only [List.filter_cons, hp, if_true, List.filter_nil]
  exact List.getLast?_concat _

theorem segEnd_subSeq_last {s : SkipList α} {pre : List Nat} {p ℓ : Nat}
    (h : pre.getLast? = some p) (hp : ℓ < heightOf s p) :
    segEnd none (subSeq s pre ℓ) = some p := by
  have hf := getLast?_filter_of_pred h (fun id => decide (ℓ < heightOf s id)) (by simp [hp])
  simp only [segEnd, subSeq]
  rw [hf]

theorem qIs_resolve {s : SkipList α} {q : α → Ordering} {o o' : Ordering} {id : Nat}
    (h1 : qIs s q o id) (h2 : qIs s q o' id) : o = o' := by
  obtain ⟨a, ha, hqa⟩ := h1
  obtain ⟨b, hb, hqb⟩ := h2
  rw [ha] at hb
  cases hb
  rw [← hqa, ← hqb]

theorem qIs_lt_of_lt {cmp : α → α → Ordering} {q : α → Ordering} (hq : QCompat cmp q)
    {s : SkipList α} {i j : Nat} (h1 : qIs s q .lt i) (h2 : idLt cmp s i j)
    (h3 : ∃ b, elemAt s j = some b) : qIs s q .lt j := by
  obtain ⟨a, ha, hqa⟩ := h1
  obtain ⟨b, hb⟩ := h3
  exact ⟨b, hb, hq.lt_mono hqa (h2 a b ha hb)⟩

theorem qIs_gt_of_gt {cmp : α → α → Ordering} {q : α → Ordering} (hq : QCompat cmp q)
    {s : SkipList α} {i j : Nat} (h1 : qIs s q .gt j) (h2 : idLt cmp s i j)
    (h3 : ∃ a, elemAt s i = some a) : qIs s q .gt i := by
  obtain ⟨b, hb, hqb⟩ := h1
  obtain ⟨a, ha⟩ := h3
  exact ⟨a, ha, hq.gt_mono hqb (h2 a b ha hb)⟩

/-! ## The walk lemma

`findLoop_spec` characterises the find-spots walk on a state satisfying
the representation invariant: starting anywhere in the walk (the state
described by the split `pre ++ post` of the list, the current height `k`
and the matching slot address), the walk either hits a node comparing
`Equal`, or completes with a split of the list into a `Greater` prefix
and a `Less` suffix and a spots array recording, for every level, the
predecessor slot and successor value at that level. -/

theorem segEnd_none (l : List Nat) : segEnd none l = l.getLast? := by
  cases h : l.getLast? <;> simp [segEnd, h]

theorem head?_filter_decomp {l : List Nat} {pd : Nat → Bool} {x : Nat}
    (h : (l.filter pd).head? = some x) :
    ∃ u v, l = u ++ x :: v ∧ ∀ y ∈ u, pd y = false := by
  induction l with
  | nil => simp at h
  | cons z zs ih =>
    by_cases hz : pd z
    · rw [List.filter_cons_of_pos hz] at h
      cases h
      exact ⟨[], zs, rfl, by simp⟩
    · rw [List.filter_cons_of_neg (by simpa using hz)] at h
      obtain ⟨u, v, rfl, hu⟩ := ih h
      refine ⟨z :: u, v, rfl, ?_⟩
      intro y hy
      rcases List.mem_cons.mp hy with rfl | hy
      · simpa using hz
      · exact hu y hy

theorem findLoop_spec {cmp : α → α → Ordering} {s : SkipList α} {ids : List Nat}
    (R : Represents cmp s ids) {q : α → Ordering} (hq : QCompat cmp q) :
    ∀ (fuel : Nat) (pre post : List Nat) (k : Nat) (sl : Slot)
      (sp : List (Slot × Option Nat)),
      ids = pre ++ post →
      (∀ id ∈ pre, qIs s q .gt id) →
      (∀ id ∈ post, k < heightOf s id → qIs s q .lt id) →
      k ≤ MAX_HEIGHT →
      ((pre.getLast? = none ∧ sl = .head (MAX_HEIGHT - k)) ∨
        (∃ p, pre.getLast? = some p ∧ k ≤ heightOf s p ∧
          sl = .node p (heightOf s p - k))) →
      sp.length = MAX_HEIGHT →
      (∀ ℓ, k ≤ ℓ → ℓ < MAX_HEIGHT → sp.getD ℓ spDflt = spotAt s pre post ℓ) →
      post.length + k + 1 ≤ fuel →
      (∃ id a, findLoop s q fuel sl k sp = some (.found id) ∧ id ∈ ids ∧
        elemAt s id = some a ∧ q a = .eq) ∨
      (∃ preF postF spF, findLoop s q fuel sl k sp = some (.spots spF) ∧
        ids = preF ++ postF ∧
        (∀ id ∈ preF, qIs s q .gt id) ∧ (∀ id ∈ postF, qIs s q .lt id) ∧
        spF.length = MAX_HEIGHT ∧
        (∀ ℓ, ℓ < MAX_HEIGHT → spF.getD ℓ spDflt = spotAt s preF postF ℓ)) := by
  intro fuel
  induction fuel with
  | zero =>
    intro pre post k sl sp _ _ _ _ _ _ _ hfuel
    omega
  | succ fuel ih =>
    intro pre post k sl sp hsplit hpre hpost hk hsrc hsplen hsp hfuel
    by_cases hk0 : k = 0
    · subst hk0
      right
      refine ⟨pre, post, sp, by simp [findLoop], hsplit, hpre, ?_, hsplen,
        fun ℓ hℓ => hsp ℓ (Nat.zero_le _) hℓ⟩
      intro id hid
      have h1 := (R.height_bounds (hsplit ▸ List.mem_append_right pre hid)).1
      exact hpost id hid (by omega)
    · have hk1 : 1 ≤ k := Nat.one_le_iff_ne_zero.mpr hk0
      have hslot : sl = slotFor s (subSeq s pre (k - 1)).getLast? (k - 1) := by
        rcases hsrc with ⟨hpl, hsl⟩ | ⟨p, hp, hkp, hsl⟩
        · have hpre0 : pre = [] := List.getLast?_eq_none_iff.mp hpl
          subst hpre0
          rw [hsl]
          show Slot.head (MAX_HEIGHT - k) = slotFor s ([] : List Nat).getLast? (k - 1)
          simp only [slotFor, List.getLast?_nil, subSeq, List.filter_nil]
          congr 1
          omega
        · have hseg := segEnd_subSeq_last (s := s) hp (show k - 1 < heightOf s p by omega)
          rw [segEnd_none] at hseg
          rw [hsl, hseg]
          simp only [slotFor]
          congr 1
          omega
      have hread : readSlot s sl = (subSeq s post (k - 1)).head? := by
        have hv := R.laneVal_split (ℓ := k - 1) (by omega) hsplit
        rw [segEnd_none] at hv
        rw [hslot]
        exact hv
      have hsortsplit : (pre ++ post).Pairwise (idLt cmp s) := hsplit ▸ R.sorted
      have hpostsort : post.Pairwise (idLt cmp s) :=
        (List.pairwise_append.mp hsortsplit).2.1
      cases hv : (subSeq s post (k - 1)).head? with
      | none =>
        have hempty : subSeq s post (k - 1) = [] := by
          cases he : subSeq s post (k - 1) with
          | nil => rfl
          | cons a l => rw [he] at hv; simp at hv
        have hrs : readSlot s sl = none := by rw [hread, hv]
        have hstep : findLoop s q (fuel + 1) sl k sp =
            findLoop s q fuel (nextSlot sl) (k - 1) (sp.set (k - 1) (sl, none)) := by
          simp [findLoop, hk0, hrs]
        rw [hstep]
        refine ih pre post (k - 1) (nextSlot sl) _ hsplit hpre ?_ (by omega) ?_
          (by simpa using hsplen) ?_ (by omega)
        · intro id hid hh
          by_cases hkh : k < heightOf s id
          · exact hpost id hid hkh
          · exfalso
            have hmm : id ∈ subSeq s post (k - 1) :=
              List.mem_filter.mpr ⟨hid, by simpa using hh⟩
            rw [hempty] at hmm
            simp at hmm
        · rcases hsrc with ⟨hpl, hsl⟩ | ⟨p, hp, hkp, hsl⟩
          · left
            refine ⟨hpl, ?_⟩
            rw [hsl]
            show Slot.head (MAX_HEIGHT - k + 1) = Slot.head (MAX_HEIGHT - (k - 1))
            congr 1
            omega
          · right
            refine ⟨p, hp, by omega, ?_⟩
            rw [hsl]
            show Slot.node p (heightOf s p - k + 1) = Slot.node p (heightOf s p - (k - 1))
            congr 1
            omega
        · intro ℓ hℓ1 hℓ2
          by_cases hℓk : ℓ = k - 1
          · rw [hℓk, getD_set_self sp (k - 1) (sl, none) spDflt (by omega)]
            show (sl, none) = (slotFor s (subSeq s pre (k - 1)).getLast? (k - 1),
              (subSeq s post (k - 1)).head?)
            rw [← hslot, ← hv]
          · have hne : k - 1 ≠ ℓ := fun he => hℓk he.symm
            rw [getD_set_ne sp (sl, none) spDflt hne]
            exact hsp ℓ (by omega) hℓ2
      | some nid =>
        have hrs : readSlot s sl = some nid := by rw [hread, hv]
        have hmemf : nid ∈ subSeq s post (k - 1) := by
          obtain ⟨t, ht⟩ := List.head?_eq_some_iff.mp hv
          rw [ht]
          exact List.mem_cons_self _ _
        have hmempost : nid ∈ post := (List.mem_filter.mp hmemf).1
        have hmemids : nid ∈ ids := hsplit ▸ List.mem_append_right pre hmempost
        have hhnid : k - 1 < heightOf s nid := by
          simpa using (List.mem_filter.mp hmemf).2
        obtain ⟨n, hn, hn1, hn2, hn3⟩ := R.valid nid hmemids
        have hheq : heightOf s nid = n.height := by simp [heightOf, hn]
        have helem : elemAt s nid = some n.elem := by simp [elemAt, elemOf, hn]
        cases hqc : q n.elem with
        | eq =>
          left
          exact ⟨nid, n.elem, by simp [findLoop, hk0, hrs, hn, hqc], hmemids, helem, hqc⟩
        | lt =>
          have hqlt : qIs s q .lt nid := ⟨n.elem, helem, hqc⟩
          have hstep : findLoop s q (fuel + 1) sl k sp =
              findLoop s q fuel (nextSlot sl) (k - 1) (sp.set (k - 1) (sl, some nid)) := by
            simp [findLoop, hk0, hrs, hn, hqc]
          rw [hstep]
          refine ih pre post (k - 1) (nextSlot sl) _ hsplit hpre ?_ (by omega) ?_
            (by simpa using hsplen) ?_ (by omega)
          · intro id hid hh
            have hidf : id ∈ subSeq s post (k - 1) :=
              List.mem_filter.mpr ⟨hid, by simpa using hh⟩
            obtain ⟨t, ht⟩ := List.head?_eq_some_iff.mp hv
            have hsubsort : (subSeq s post (k - 1)).Pairwise (idLt cmp s) :=
              List.Pairwise.sublist (List.filter_sublist post) hpostsort
            rw [ht] at hidf hsubsort
            rcases List.mem_cons.mp hidf with rfl | hidt
            · exact hqlt
            · refine qIs_lt_of_lt hq hqlt
                (List.rel_of_pairwise_cons hsubsort hidt) (R.elem_exists ?_)
              have hidp : id ∈ subSeq s post (k - 1) := by
                rw [ht]
                exact List.mem_cons_of_mem nid hidt
              exact hsplit ▸ List.mem_append_right pre (List.mem_filter.mp hidp).1
          · rcases hsrc with ⟨hpl, hsl⟩ | ⟨p, hp, hkp, hsl⟩
            · left
              refine ⟨hpl, ?_⟩
              rw [hsl]
              show Slot.head (MAX_HEIGHT - k + 1) = Slot.head (MAX_HEIGHT - (k - 1))
              congr 1
              omega
            · right
              refine ⟨p, hp, by omega, ?_⟩
              rw [hsl]
              show Slot.node p (heightOf s p - k + 1) = Slot.node p (heightOf s p - (k - 1))
              congr 1
              omega
          · intro ℓ hℓ1 hℓ2
            by_cases hℓk : ℓ = k - 1
            · rw [hℓk, getD_set_self sp (k - 1) (sl, some nid) spDflt (by omega)]
              show (sl, some nid) = (slotFor s (subSeq s pre (k - 1)).getLast? (k - 1),
                (subSeq s post (k - 1)).head?)
              rw [← hslot, ← hv]
            · have hne : k - 1 ≠ ℓ := fun he => hℓk he.symm
              rw [getD_set_ne sp (sl, some nid) spDflt hne]
              exact hsp ℓ (by omega) hℓ2
        | gt =>
          have hqgt : qIs s q .gt nid := ⟨n.elem, helem, hqc⟩
          have hnidk : heightOf s nid ≤ k := by
            by_contra hlt
            have hl2 := hpost nid hmempost (by omega)
            have hbad := qIs_resolve hl2 hqgt
            exact Ordering.noConfusion hbad
          obtain ⟨u, v, hpostdec, hu⟩ := head?_filter_decomp hv
          have huh : ∀ y ∈ u, heightOf s y ≤ k - 1 := by
            intro y hy
            have hh := hu y hy
            simpa using hh
          have hpre' : ∀ id ∈ pre ++ u ++ [nid], qIs s q .gt id := by
            intro id hid
            rcases List.mem_append.mp hid with hid | hid
            · rcases List.mem_append.mp hid with hid | hid
              · exact hpre id hid
              · have hrel : idLt cmp s id nid := by
                  have hps : post.Pairwise (idLt cmp s) := hpostsort
                  rw [hpostdec] at hps
                  exact (List.pairwise_append.mp hps).2.2 id hid nid
                    (List.mem_cons_self _ _)
                refine qIs_gt_of_gt hq hqgt hrel
                  (R.elem_exists (hsplit ▸ List.mem_append_right pre
                    (hpostdec ▸ List.mem_append_left _ hid)))
            · rcases List.mem_singleton.mp hid with rfl
              exact hqgt
          have hstep : findLoop s q (fuel + 1) sl k sp =
              findLoop s q fuel (.node nid (n.height - k)) k sp := by
            simp [findLoop, hk0, hrs, hn, hqc]
          rw [hstep]
          have hsplit' : ids = (pre ++ u ++ [nid]) ++ v := by
            rw [hsplit, hpostdec]
            simp
          refine ih (pre ++ u ++ [nid]) v k (.node nid (n.height - k)) _ hsplit'
            hpre' ?_ hk ?_ hsplen ?_ ?_
          · intro id hid hh
            exact hpost id (hpostdec ▸ List.mem_append_right u
              (List.mem_cons_of_mem nid hid)) hh
          · right
            refine ⟨nid, ?_, by omega, ?_⟩
            · exact List.getLast?_concat _
            · rw [hheq]
          · intro ℓ hℓ1 hℓ2
            rw [hsp ℓ hℓ1 hℓ2]
            have hfu : subSeq s u ℓ = [] := by
              simp only [subSeq]
              rw [List.filter_eq_nil_iff]
              intro y hy
              have hyy := huh y hy
              simp
              omega
            have hfnid : subSeq s [nid] ℓ = [] := by
              simp only [subSeq]
              rw [List.filter_eq_nil_iff]
              intro y hy
              rcases List.mem_singleton.mp hy with rfl
              simp
              omega
            show spotAt s pre post ℓ = spotAt s (pre ++ u ++ [nid]) v ℓ
            simp only [spotAt]
            have h1 : subSeq s (pre ++ u ++ [nid]) ℓ = subSeq s pre ℓ := by
              show ((pre ++ u ++ [nid]).filter _) = _
              rw [List.filter_append, List.filter_append]
              rw [show (List.filter (fun id => decide (ℓ < heightOf s id)) u) =
                subSeq s u ℓ from rfl, hfu]
              rw [show (List.filter (fun id => decide (ℓ < heightOf s id)) [nid]) =
                subSeq s [nid] ℓ from rfl, hfnid]
              simp [subSeq]
            have h2 : subSeq s post ℓ = subSeq s v ℓ := by
              rw [hpostdec]
              show ((u ++ nid :: v).filter _) = _
              rw [show (nid :: v) = [nid] ++ v from rfl]
              rw [List.filter_append, List.filter_append]
              rw [show (List.filter (fun id => decide (ℓ < heightOf s id)) u) =
                subSeq s u ℓ from rfl, hfu]
              rw [show (List.filter (fun id => decide (ℓ < heightOf s id)) [nid]) =
                subSeq s [nid] ℓ from rfl, hfnid]
              simp [subSeq]
            rw [h1, h2]
          · have hlen : post.length = u.length + 1 + v.length := by
              rw [hpostdec]
              simp
              omega
            omega

/-! ## The splice

The `'insert` loop of `insert` performs, per level from the bottom up,
one store into the new node's lane and one CAS on the recorded
predecessor slot.  On a sequential execution every CAS succeeds, so the
loop equals the cumulative-writes function `spliceWrites`, and the
resulting state represents the list with the new id spliced in. -/

theorem subSeq_congr {s2 s : SkipList α} {l : List Nat} {ℓ : Nat}
    (h : ∀ id ∈ l, heightOf s2 id = heightOf s id) :
    subSeq s2 l ℓ = subSeq s l ℓ := by
  simp only [subSeq]
  exact List.filter_congr (fun id hid => by rw [h id hid])

theorem slotFor_inj {s : SkipList α} {x y : Option Nat} {ℓ ℓ' : Nat}
    (hℓ : ℓ < MAX_HEIGHT) (hℓ' : ℓ' < MAX_HEIGHT)
    (hx : ∀ p, x = some p → ℓ < heightOf s p)
    (hy : ∀ p, y = some p → ℓ' < heightOf s p)
    (h : slotFor s x ℓ = slotFor s y ℓ') : x = y ∧ ℓ = ℓ' := by
  cases x with
  | none =>
    cases y with
    | none =>
      simp only [slotFor, Slot.head.injEq] at h
      exact ⟨rfl, by omega⟩
    | some p => exact absurd h (by simp [slotFor])
  | some p =>
    cases y with
    | none => exact absurd h (by simp [slotFor])
    | some p' =>
      simp only [slotFor, Slot.node.injEq] at h
      obtain ⟨rfl, h2⟩ := h
      have h1 := hx p rfl
      have h1' := hy p rfl
      exact ⟨rfl, by omega⟩

theorem laneSeg_congr2 {f g : Option Nat → Option Nat} :
    ∀ {l : List Nat} {src out : Option Nat}, laneSeg f src l out →
      (∀ u v, l = u ++ v → v ≠ [] → g (segEnd src u) = f (segEnd src u)) →
      laneSeg g src l out := by
  intro l
  induction l with
  | nil => intro src out h _; exact h
  | cons x xs ih =>
    intro src out h hg
    refine ⟨?_, ?_⟩
    · have hh := hg [] (x :: xs) rfl (List.cons_ne_nil x xs)
      rw [segEnd_nil] at hh
      rw [hh]
      exact h.1
    · refine ih h.2 ?_
      intro u v huv hv
      have hh := hg (x :: u) v (by rw [huv]; rfl) hv
      rwa [segEnd_cons] at hh

theorem nodes_writeSlot_entry {s : SkipList α} {id : Nat} {n : Node α}
    (hn : s.nodes[id]? = some n) (sl : Slot) (v : Option Nat) :
    ∃ n2, (writeSlot s sl v).nodes[id]? = some n2 ∧
      n2.height = n.height ∧ n2.elem = n.elem ∧ n2.lanes.length = n.lanes.length := by
  cases sl with
  | head i => exact ⟨n, hn, rfl, rfl, rfl⟩
  | node id' i =>
    simp only [writeSlot]
    cases h' : s.nodes[id']? with
    | none => exact ⟨n, hn, rfl, rfl, rfl⟩
    | some n' =>
      have hlen : id' < s.nodes.length := by
        by_contra hge
        rw [List.getElem?_eq_none (Nat.le_of_not_lt hge)] at h'
        exact Option.noConfusion h'
      by_cases hid : id' = id
      · subst hid
        rw [h'] at hn
        injection hn with hnn
        refine ⟨{ n' with lanes := n'.lanes.set i v }, ?_, by rw [hnn], by rw [hnn],
          by simp [hnn]⟩
        simp [List.getElem?_set_self hlen]
      · exact ⟨n, by simpa [List.getElem?_set_ne hid] using hn, rfl, rfl, rfl⟩

theorem spliceWrites_entry {s1 : SkipList α} {id : Nat} {n : Node α}
    (hn : s1.nodes[id]? = some n) {nid hgt : Nat} {sp : List (Slot × Option Nat)}
    (m : Nat) :
    ∃ n2, (spliceWrites nid hgt sp s1 m).nodes[id]? = some n2 ∧
      n2.height = n.height ∧ n2.elem = n.elem ∧ n2.lanes.length = n.lanes.length := by
  induction m with
  | zero => exact ⟨n, hn, rfl, rfl, rfl⟩
  | succ m ih =>
    obtain ⟨n2, hn2, c1, c2, c3⟩ := ih
    obtain ⟨n3, hn3, d1, d2, d3⟩ := nodes_writeSlot_entry hn2
      (Slot.node nid (hgt - 1 - m)) (sp.getD m spDflt).2
    obtain ⟨n4, hn4, e1, e2, e3⟩ := nodes_writeSlot_entry hn3
      (sp.getD m spDflt).1 (some nid)
    exact ⟨n4, hn4, by omega, by rw [e2, d2, c2], by omega⟩

theorem heightOf_spliceWrites {nid hgt : Nat} {sp : List (Slot × Option Nat)}
    {s1 : SkipList α} (m : Nat) :
    ∀ id, heightOf (spliceWrites nid hgt sp s1 m) id = heightOf s1 id := by
  induction m with
  | zero => intro id; rfl
  | succ m ih =>
    intro id
    simp only [spliceWrites]
    rw [heightOf_writeSlot, heightOf_writeSlot, ih id]

theorem elemAt_spliceWrites {nid hgt : Nat} {sp : List (Slot × Option Nat)}
    {s1 : SkipList α} (m : Nat) :
    ∀ id, elemAt (spliceWrites nid hgt sp s1 m) id = elemAt s1 id := by
  induction m with
  | zero => intro id; rfl
  | succ m ih =>
    intro id
    simp only [spliceWrites]
    rw [elemAt_writeSlot, elemAt_writeSlot, ih id]

theorem lanes_length_spliceWrites {nid hgt : Nat} {sp : List (Slot × Option Nat)}
    {s1 : SkipList α} {m : Nat} :
    (spliceWrites nid hgt sp s1 m).lanes.length = s1.lanes.length := by
  induction m with
  | zero => rfl
  | succ m ih =>
    simp only [spliceWrites]
    rw [lanes_length_writeSlot, lanes_length_writeSlot, ih]

theorem nodes_length_spliceWrites {nid hgt : Nat} {sp : List (Slot × Option Nat)}
    {s1 : SkipList α} {m : Nat} :
    (spliceWrites nid hgt sp s1 m).nodes.length = s1.nodes.length := by
  induction m with
  | zero => rfl
  | succ m ih =>
    simp only [spliceWrites]
    rw [nodes_length_writeSlot, nodes_length_writeSlot, ih]

theorem readSlot_spliceWrites_untouched {nid hgt : Nat} {sp : List (Slot × Option Nat)}
    {s1 : SkipList α} {sl : Slot} (m : Nat)
    (h : ∀ j, j < m → sl ≠ Slot.node nid (hgt - 1 - j) ∧ sl ≠ (sp.getD j spDflt).1) :
    readSlot (spliceWrites nid hgt sp s1 m) sl = readSlot s1 sl := by
  induction m with
  | zero => rfl
  | succ m ih =>
    simp only [spliceWrites]
    rw [readSlot_writeSlot_ne _ _ (fun he => (h m (Nat.lt_succ_self m)).2 he.symm)]
    rw [readSlot_writeSlot_ne _ _ (fun he => (h m (Nat.lt_succ_self m)).1 he.symm)]
    exact ih (fun j hj => h j (Nat.lt_succ_of_lt hj))

theorem readSlot_spliceWrites_newlane {nid hgt : Nat} {sp : List (Slot × Option Nat)}
    {s1 : SkipList α} {n : Node α}
    (hn : s1.nodes[nid]? = some n) (hlen : n.lanes.length = hgt)
    (hD1 : ∀ j, j < hgt → ∀ i, (sp.getD j spDflt).1 ≠ Slot.node nid i)
    (m : Nat) : m ≤ hgt → ∀ ℓ, ℓ < m →
    readSlot (spliceWrites nid hgt sp s1 m) (Slot.node nid (hgt - 1 - ℓ)) =
      (sp.getD ℓ spDflt).2 := by
  induction m with
  | zero => intro _ ℓ hℓ; omega
  | succ m ih =>
    intro hm ℓ hℓ
    simp only [spliceWrites]
    rw [readSlot_writeSlot_ne _ _ (fun he => hD1 m (by omega) _ he)]
    by_cases hc : ℓ = m
    · rw [hc]
      obtain ⟨n2, hn2, c1, c2, c3⟩ := spliceWrites_entry hn m
      exact readSlot_writeSlot_node _ _ _ hn2 (by rw [c3, hlen]; omega)
    · rw [readSlot_writeSlot_ne _ _ ?_]
      · exact ih (by omega) ℓ (by omega)
      · intro he
        simp only [Slot.node.injEq] at he
        omega

theorem readSlot_spliceWrites_pred {nid hgt : Nat} {sp : List (Slot × Option Nat)}
    {s1 : SkipList α}
    (hD1 : ∀ j, j < hgt → ∀ i, (sp.getD j spDflt).1 ≠ Slot.node nid i)
    (hD2 : ∀ j j', j < hgt → j' < hgt → j ≠ j' →
      (sp.getD j spDflt).1 ≠ (sp.getD j' spDflt).1)
    (hV : ∀ j, j < hgt →
      ((∃ i, (sp.getD j spDflt).1 = Slot.head i ∧ i < s1.lanes.length) ∨
       (∃ p i np, (sp.getD j spDflt).1 = Slot.node p i ∧ s1.nodes[p]? = some np ∧
         i < np.lanes.length)))
    (m : Nat) : m ≤ hgt → ∀ ℓ, ℓ < m →
    readSlot (spliceWrites nid hgt sp s1 m) ((sp.getD ℓ spDflt).1) = some nid := by
  induction m with
  | zero => intro _ ℓ hℓ; omega
  | succ m ih =>
    intro hm ℓ hℓ
    simp only [spliceWrites]
    by_cases hc : ℓ = m
    · rw [hc]
      rcases hV m (by omega) with ⟨i, hE, hlt⟩ | ⟨p, i, np, hE, hnp, hlt⟩
      · rw [hE]
        have hl2 : (writeSlot (spliceWrites nid hgt sp s1 m)
            (Slot.node nid (hgt - 1 - m)) (sp.getD m spDflt).2).lanes.length =
            s1.lanes.length := by
          rw [lanes_length_writeSlot, lanes_length_spliceWrites]
        exact readSlot_writeSlot_head _ _ _ (by rw [hl2]; exact hlt)
      · rw [hE]
        obtain ⟨n2, hn2, c1, c2, c3⟩ := spliceWrites_entry hnp m
        obtain ⟨n3, hn3, d1, d2, d3⟩ := nodes_writeSlot_entry hn2
          (Slot.node nid (hgt - 1 - m)) (sp.getD m spDflt).2
        exact readSlot_writeSlot_node _ _ _ hn3 (by rw [d3, c3]; exact hlt)
    · rw [readSlot_writeSlot_ne _ _
        (hD2 m ℓ (by omega) (by omega) (fun he => hc he.symm))]
      rw [readSlot_writeSlot_ne _ _ (fun he => hD1 ℓ (by omega) _ he.symm)]
      exact ih (by omega) ℓ (by omega)

theorem spliceEntries_length {hgt : Nat} {sp : List (Slot × Option Nat)}
    (hsl : hgt ≤ sp.length) : (spliceEntries hgt sp).length = hgt := by
  simp only [spliceEntries, List.length_zip, List.length_reverse, List.length_range]
  omega

theorem spliceEntries_drop_cons {hgt : Nat} {sp : List (Slot × Option Nat)}
    (hsl : hgt ≤ sp.length) {m : Nat} (hm : m < hgt) :
    (spliceEntries hgt sp).drop m =
      (sp.getD m spDflt, hgt - 1 - m) :: (spliceEntries hgt sp).drop (m + 1) := by
  have hmlt : m < (spliceEntries hgt sp).length := by
    rw [spliceEntries_length hsl]; omega
  have hm1 : m < sp.length := by omega
  rw [List.drop_eq_getElem_cons hmlt]
  congr 1
  show (sp.zip (List.range hgt).reverse)[m] = _
  rw [List.getElem_zip, List.getElem_reverse, List.getElem_range,
    List.getD_eq_getElem sp spDflt hm1]
  simp [List.length_range]

theorem spliceLoop_run {nid hgt : Nat} {sp : List (Slot × Option Nat)}
    {s1 : SkipList α} (hsl : hgt ≤ sp.length)
    (hCAS : ∀ ℓ, ℓ < hgt →
      readSlot (writeSlot (spliceWrites nid hgt sp s1 ℓ)
          (Slot.node nid (hgt - 1 - ℓ)) (sp.getD ℓ spDflt).2)
        ((sp.getD ℓ spDflt).1) = (sp.getD ℓ spDflt).2) :
    ∀ k m b, m + k = hgt →
      spliceLoop nid (spliceWrites nid hgt sp s1 m) ((spliceEntries hgt sp).drop m) b =
        (spliceWrites nid hgt sp s1 hgt, true) := by
  intro k
  induction k with
  | zero =>
    intro m b hmk
    have hme : m = hgt := by omega
    rw [hme, show (spliceEntries hgt sp).drop hgt = [] from
      List.drop_eq_nil_of_le (by rw [spliceEntries_length hsl])]
    rfl
  | succ k ih =>
    intro m b hmk
    rw [spliceEntries_drop_cons hsl (by omega)]
    show spliceLoop nid (spliceWrites nid hgt sp s1 m)
      ((sp.getD m spDflt, hgt - 1 - m) :: (spliceEntries hgt sp).drop (m + 1)) b = _
    simp only [spliceLoop]
    rw [if_pos (hCAS m (by omega))]
    exact ih (m + 1) true (by omega)

theorem splice_spec {cmp : α → α → Ordering} {s : SkipList α} {ids : List Nat}
    (R : Represents cmp s ids) (hc : CmpOk cmp) {e : α} {hgt : Nat}
    {pre post : List Nat} {sp : List (Slot × Option Nat)}
    (hsplit : ids = pre ++ post)
    (hpre : ∀ id ∈ pre, qIs s (cmp e ·) .gt id)
    (hpost : ∀ id ∈ post, qIs s (cmp e ·) .lt id)
    (hg1 : 1 ≤ hgt) (hg31 : hgt ≤ MAX_HEIGHT)
    (hsplen : sp.length = MAX_HEIGHT)
    (hsp : ∀ ℓ, ℓ < MAX_HEIGHT → sp.getD ℓ spDflt = spotAt s pre post ℓ) :
    spliceLoop s.nodes.length (allocNode s e hgt).1 (spliceEntries hgt sp) false =
      (spliceWrites s.nodes.length hgt sp (allocNode s e hgt).1 hgt, true) ∧
    Represents cmp (spliceWrites s.nodes.length hgt sp (allocNode s e hgt).1 hgt)
      (pre ++ s.nodes.length :: post) ∧
    elemAt (spliceWrites s.nodes.length hgt sp (allocNode s e hgt).1 hgt)
      s.nodes.length = some e ∧
    (∀ id, id < s.nodes.length →
      elemAt (spliceWrites s.nodes.length hgt sp (allocNode s e hgt).1 hgt) id =
        elemAt s id) ∧
    (spliceWrites s.nodes.length hgt sp (allocNode s e hgt).1 hgt).nodes.length =
      s.nodes.length + 1 := by
  have hn1 : (allocNode s e hgt).1.nodes[s.nodes.length]? =
      some ⟨e, hgt, List.replicate hgt none⟩ := getElem?_allocNode_self s e hgt
  have hdisj : ∀ y, y ∈ pre → y ∈ post → False := by
    have hd := List.disjoint_of_nodup_append (hsplit ▸ R.nodup)
    exact fun y hy1 hy2 => hd hy1 hy2
  have hmempre : ∀ y ∈ pre, y ∈ ids :=
    fun y hy => hsplit ▸ List.mem_append_left post hy
  have hmempost : ∀ y ∈ post, y ∈ ids :=
    fun y hy => hsplit ▸ List.mem_append_right pre hy
  have hnidpre : s.nodes.length ∉ pre := fun h =>
    absurd (R.mem_lt_length (hmempre _ h)) (Nat.lt_irrefl _)
  have hnidpost : s.nodes.length ∉ post := fun h =>
    absurd (R.mem_lt_length (hmempost _ h)) (Nat.lt_irrefl _)
  have hslotj : ∀ j, j < MAX_HEIGHT →
      (sp.getD j spDflt).1 = slotFor s (subSeq s pre j).getLast? j := by
    intro j hj
    rw [hsp j hj]
    rfl
  have hsuccj : ∀ j, j < MAX_HEIGHT →
      (sp.getD j spDflt).2 = (subSeq s post j).head? := by
    intro j hj
    rw [hsp j hj]
    rfl
  have hpredmem : ∀ j p, (subSeq s pre j).getLast? = some p →
      p ∈ pre ∧ j < heightOf s p := by
    intro j p hp
    have hmem := List.mem_of_mem_getLast? hp
    have h1 := List.mem_filter.mp hmem
    exact ⟨h1.1, by simpa using h1.2⟩
  have hD1 : ∀ j, j < hgt → ∀ i, (sp.getD j spDflt).1 ≠ .node s.nodes.length i := by
    intro j hj i hE
    rw [hslotj j (by omega)] at hE
    cases hp : (subSeq s pre j).getLast? with
    | none =>
      rw [hp] at hE
      simp [slotFor] at hE
    | some p =>
      rw [hp] at hE
      have hlt : p < s.nodes.length := R.mem_lt_length (hmempre p (hpredmem j p hp).1)
      simp only [slotFor, Slot.node.injEq] at hE
      omega
  have hD2 : ∀ j j', j < hgt → j' < hgt → j ≠ j' →
      (sp.getD j spDflt).1 ≠ (sp.getD j' spDflt).1 := by
    intro j j' hj hj' hne hE
    rw [hslotj j (by omega), hslotj j' (by omega)] at hE
    have hres := slotFor_inj (s := s) (by omega) (by omega)
      (fun p hp => (hpredmem j p hp).2) (fun p hp => (hpredmem j' p hp).2) hE
    exact hne hres.2
  have hV : ∀ j, j < hgt →
      ((∃ i, (sp.getD j spDflt).1 = .head i ∧ i < (allocNode s e hgt).1.lanes.length) ∨
       (∃ p i np, (sp.getD j spDflt).1 = .node p i ∧
         (allocNode s e hgt).1.nodes[p]? = some np ∧ i < np.lanes.length)) := by
    intro j hj
    rw [hslotj j (by omega)]
    cases hp : (subSeq s pre j).getLast? with
    | none =>
      left
      refine ⟨MAX_HEIGHT - 1 - j, rfl, ?_⟩
      rw [lanes_allocNode, R.lanesLen]
      omega
    | some p =>
      obtain ⟨hm, hh⟩ := hpredmem j p hp
      have hmemids : p ∈ ids := hmempre p hm
      obtain ⟨np, hnp, b1, b2, b3⟩ := R.valid p hmemids
      right
      refine ⟨p, heightOf s p - 1 - j, np, rfl, ?_, ?_⟩
      · rw [getElem?_allocNode s e hgt (R.mem_lt_length hmemids)]
        exact hnp
      · have hpe : heightOf s p = np.height := by simp [heightOf, hnp]
        rw [b3]
        omega
  have hreadpred : ∀ j, j < MAX_HEIGHT →
      readSlot s ((sp.getD j spDflt).1) = (subSeq s post j).head? := by
    intro j hj
    rw [hslotj j hj]
    have hsplitv := R.laneVal_split (ℓ := j) hj hsplit
    rw [segEnd_none] at hsplitv
    exact hsplitv
  have hpredalloc : ∀ j, j < MAX_HEIGHT →
      readSlot (allocNode s e hgt).1 ((sp.getD j spDflt).1) =
        readSlot s ((sp.getD j spDflt).1) := by
    intro j hj
    refine readSlot_allocNode s e hgt ?_
    intro id i hEq
    rw [hslotj j hj] at hEq
    cases hp : (subSeq s pre j).getLast? with
    | none => rw [hp] at hEq; simp [slotFor] at hEq
    | some p =>
      rw [hp] at hEq
      simp only [slotFor, Slot.node.injEq] at hEq
      obtain ⟨rfl, -⟩ := hEq
      exact R.mem_lt_length (hmempre p (hpredmem j p hp).1)
  have hCAS : ∀ ℓ, ℓ < hgt →
      readSlot (writeSlot (spliceWrites s.nodes.length hgt sp (allocNode s e hgt).1 ℓ)
          (.node s.nodes.length (hgt - 1 - ℓ)) (sp.getD ℓ spDflt).2)
        ((sp.getD ℓ spDflt).1) = (sp.getD ℓ spDflt).2 := by
    intro ℓ hℓ
    rw [readSlot_writeSlot_ne _ _ (fun he => hD1 ℓ hℓ _ he.symm)]
    rw [readSlot_spliceWrites_untouched ℓ
      (fun j hj => ⟨fun he => hD1 ℓ hℓ _ he,
        hD2 ℓ j hℓ (by omega) (by omega)⟩)]
    rw [hpredalloc ℓ (by omega), hreadpred ℓ (by omega), hsuccj ℓ (by omega)]
  have hrun := spliceLoop_run (show hgt ≤ sp.length by omega) hCAS hgt 0 false (by omega)
  rw [List.drop_zero] at hrun
  rw [show spliceWrites s.nodes.length hgt sp (allocNode s e hgt).1 0 =
    (allocNode s e hgt).1 from rfl] at hrun
  -- preservation facts for the final state
  have hHnew : ∀ id, heightOf (spliceWrites s.nodes.length hgt sp (allocNode s e hgt).1 hgt)
      id = heightOf (allocNode s e hgt).1 id := heightOf_spliceWrites hgt
  have hEnew : ∀ id, elemAt (spliceWrites s.nodes.length hgt sp (allocNode s e hgt).1 hgt)
      id = elemAt (allocNode s e hgt).1 id := elemAt_spliceWrites hgt
  have hHold : ∀ id ∈ ids, heightOf (spliceWrites s.nodes.length hgt sp
      (allocNode s e hgt).1 hgt) id = heightOf s id := fun id hid => by
    rw [hHnew, heightOf_allocNode s e hgt (R.mem_lt_length hid)]
  have hEold : ∀ id, id < s.nodes.length → elemAt (spliceWrites s.nodes.length hgt sp
      (allocNode s e hgt).1 hgt) id = elemAt s id := fun id hid => by
    rw [hEnew, elemAt_allocNode s e hgt hid]
  have hHnid : heightOf (spliceWrites s.nodes.length hgt sp (allocNode s e hgt).1 hgt)
      s.nodes.length = hgt := by
    rw [hHnew, heightOf_allocNode_self]
  have hEnid : elemAt (spliceWrites s.nodes.length hgt sp (allocNode s e hgt).1 hgt)
      s.nodes.length = some e := by
    rw [hEnew, elemAt_allocNode_self]
  refine ⟨hrun, ?_, hEnid, hEold, ?_⟩
  swap
  · rw [nodes_length_spliceWrites, nodes_allocNode]
    simp
  refine ⟨?_, ?_, ?_, ?_, ?_⟩
  · -- lanesLen
    rw [lanes_length_spliceWrites, lanes_allocNode, R.lanesLen]
  · -- valid
    intro id hid
    rcases List.mem_append.mp hid with hid | hid
    · obtain ⟨n, hn, b1, b2, b3⟩ := R.valid id (hmempre id hid)
      have hn' : (allocNode s e hgt).1.nodes[id]? = some n := by
        rw [getElem?_allocNode s e hgt (R.mem_lt_length (hmempre id hid))]
        exact hn
      obtain ⟨n2, hn2, c1, c2, c3⟩ := spliceWrites_entry hn' hgt
      exact ⟨n2, hn2, by omega, by omega, by rw [c3, b3, c1]⟩
    · rcases List.mem_cons.mp hid with rfl | hid
      · obtain ⟨n2, hn2, c1, c2, c3⟩ := spliceWrites_entry hn1 hgt
        refine ⟨n2, hn2, by simp [c1]; omega, by simp [c1]; omega, ?_⟩
        rw [c3, c1]
        simp
      · obtain ⟨n, hn, b1, b2, b3⟩ := R.valid id (hmempost id hid)
        have hn' : (allocNode s e hgt).1.nodes[id]? = some n := by
          rw [getElem?_allocNode s e hgt (R.mem_lt_length (hmempost id hid))]
          exact hn
        obtain ⟨n2, hn2, c1, c2, c3⟩ := spliceWrites_entry hn' hgt
        exact ⟨n2, hn2, by omega, by omega, by rw [c3, b3, c1]⟩
  · -- nodup
    rw [List.nodup_middle, List.nodup_cons]
    refine ⟨?_, hsplit ▸ R.nodup⟩
    intro hmem
    rcases List.mem_append.mp hmem with h | h
    · exact hnidpre h
    · exact hnidpost h
  · -- sorted
    have hidlt_old : ∀ i j, i ∈ ids → j ∈ ids → idLt cmp s i j →
        idLt cmp (spliceWrites s.nodes.length hgt sp (allocNode s e hgt).1 hgt) i j := by
      intro i j hi hj h a b ha hb
      rw [hEold i (R.mem_lt_length hi)] at ha
      rw [hEold j (R.mem_lt_length hj)] at hb
      exact h a b ha hb
    have hsortsplit : (pre ++ post).Pairwise (idLt cmp s) := hsplit ▸ R.sorted
    obtain ⟨hpairpre, hpairpost, hcross⟩ := List.pairwise_append.mp hsortsplit
    rw [List.pairwise_append]
    refine ⟨?_, ?_, ?_⟩
    · exact hpairpre.imp_of_mem (fun {a b} ha hb hr =>
        hidlt_old a b (hmempre a ha) (hmempre b hb) hr)
    · rw [List.pairwise_cons]
      refine ⟨?_, hpairpost.imp_of_mem (fun {a b} ha hb hr =>
        hidlt_old a b (hmempost a ha) (hmempost b hb) hr)⟩
      intro j hj a b ha hb
      rw [hEnid] at ha
      cases ha
      rw [hEold j (R.mem_lt_length (hmempost j hj))] at hb
      obtain ⟨b', hb', hlt⟩ := hpost j hj
      rw [hb'] at hb
      cases hb
      exact hlt
    · intro x hx y hy
      rcases List.mem_cons.mp hy with rfl | hy
      · intro a b ha hb
        rw [hEold x (R.mem_lt_length (hmempre x hx))] at ha
        rw [hEnid] at hb
        cases hb
        obtain ⟨a', ha', hgt'⟩ := hpre x hx
        rw [ha'] at ha
        cases ha
        exact hc.gt_iff.mp hgt'
      · exact hidlt_old x y (hmempre x hx) (hmempost y hy) (hcross x hx y hy)
  · -- chain
    intro ℓ hℓ
    have hsubpre : subSeq (spliceWrites s.nodes.length hgt sp (allocNode s e hgt).1 hgt)
        pre ℓ = subSeq s pre ℓ :=
      subSeq_congr (fun id hid => hHold id (hmempre id hid))
    have hsubpost : subSeq (spliceWrites s.nodes.length hgt sp (allocNode s e hgt).1 hgt)
        post ℓ = subSeq s post ℓ :=
      subSeq_congr (fun id hid => hHold id (hmempost id hid))
    have hApre : ∀ y ∈ subSeq s pre ℓ, y ∈ pre ∧ ℓ < heightOf s y := by
      intro y hy
      have h1 := List.mem_filter.mp hy
      exact ⟨h1.1, by simpa using h1.2⟩
    have hBpost : ∀ y ∈ subSeq s post ℓ, y ∈ post ∧ ℓ < heightOf s y := by
      intro y hy
      have h1 := List.mem_filter.mp hy
      exact ⟨h1.1, by simpa using h1.2⟩
    -- the untouched-read transfer at level ℓ
    have hsafe : ∀ (x : Option Nat),
        ((x = none ∧ (hgt ≤ ℓ ∨ subSeq s pre ℓ ≠ [])) ∨
         (∃ y, x = some y ∧ ℓ < heightOf s y ∧
           (y ∈ post ∨ (y ∈ pre ∧ (hgt ≤ ℓ ∨ (subSeq s pre ℓ).getLast? ≠ some y))))) →
        laneVal (spliceWrites s.nodes.length hgt sp (allocNode s e hgt).1 hgt) x ℓ =
          laneVal s x ℓ := by
      intro x hx
      have hxids : ∀ y, x = some y → y ∈ ids := by
        intro y hxy
        rcases hx with ⟨hE, -⟩ | ⟨y', hE, -, hy'⟩
        · rw [hE] at hxy; exact Option.noConfusion hxy
        · rw [hE] at hxy
          cases hxy
          rcases hy' with h | ⟨h, -⟩
          · exact hmempost y h
          · exact hmempre y h
      have hslf : slotFor (spliceWrites s.nodes.length hgt sp (allocNode s e hgt).1 hgt)
          x ℓ = slotFor s x ℓ := by
        cases x with
        | none => rfl
        | some y =>
          simp only [slotFor]
          rw [hHold y (hxids y rfl)]
      show readSlot _ (slotFor _ x ℓ) = readSlot s (slotFor s x ℓ)
      rw [hslf]
      rw [readSlot_spliceWrites_untouched hgt ?_]
      · refine readSlot_allocNode s e hgt ?_
        intro id i hEq
        cases x with
        | none => simp [slotFor] at hEq
        | some y =>
          simp only [slotFor, Slot.node.injEq] at hEq
          obtain ⟨rfl, -⟩ := hEq
          exact R.mem_lt_length (hxids y rfl)
      · intro j hj
        constructor
        · intro hEq
          cases x with
          | none => simp [slotFor] at hEq
          | some y =>
            simp only [slotFor, Slot.node.injEq] at hEq
            obtain ⟨hyy, -⟩ := hEq
            have := R.mem_lt_length (hxids y rfl)
            omega
        · intro hEq
          rw [hslotj j (by omega)] at hEq
          have hxb : ∀ p, x = some p → ℓ < heightOf s p := by
            intro p hp
            rcases hx with ⟨hE, -⟩ | ⟨y', hE, hh, -⟩
            · rw [hE] at hp; exact Option.noConfusion hp
            · rw [hE] at hp
              cases hp
              exact hh
          have hres := slotFor_inj (s := s) (by omega) (by omega) hxb
            (fun p hp => (hpredmem j p hp).2) hEq
          obtain ⟨hxeq, hℓj⟩ := hres
          subst hℓj
          rcases hx with ⟨hE, hA⟩ | ⟨y, hE, hyh, hy⟩
          · subst hE
            have hempty : subSeq s pre ℓ = [] := List.getLast?_eq_none_iff.mp hxeq.symm
            rcases hA with hA | hA
            · omega
            · exact hA hempty
          · subst hE
            have hmem := hpredmem ℓ y hxeq.symm
            rcases hy with hy | ⟨hy, hlast⟩
            · exact hdisj y hmem.1 hy
            · rcases hlast with hlast | hlast
              · omega
              · exact hlast hxeq.symm
    -- decompose the old chain at level ℓ
    have hold : laneOk (fun src => laneVal s src ℓ) none
        (subSeq s pre ℓ ++ subSeq s post ℓ) := by
      have hch := R.chain ℓ hℓ
      rw [hsplit] at hch
      rwa [show subSeq s (pre ++ post) ℓ = subSeq s pre ℓ ++ subSeq s post ℓ from
        List.filter_append _ _] at hch
    obtain ⟨hseg, hok⟩ := (laneOk_append _ _ none).mp hold
    have hAnodup : (subSeq s pre ℓ).Nodup := by
      have : pre.Nodup := ((List.nodup_append).mp (hsplit ▸ R.nodup)).1
      exact this.filter _
    by_cases hcase : ℓ < hgt
    · -- the new node participates in this level
      have hsub : subSeq (spliceWrites s.nodes.length hgt sp (allocNode s e hgt).1 hgt)
          (pre ++ s.nodes.length :: post) ℓ =
          subSeq s pre ℓ ++ s.nodes.length :: subSeq s post ℓ := by
        show List.filter _ (pre ++ s.nodes.length :: post) = _
        rw [List.filter_append, List.filter_cons]
        rw [show (decide (ℓ < heightOf (spliceWrites s.nodes.length hgt sp
          (allocNode s e hgt).1 hgt) s.nodes.length)) = true by
            simp [hHnid]; omega]
        rw [show List.filter (fun id => decide (ℓ < heightOf (spliceWrites
          s.nodes.length hgt sp (allocNode s e hgt).1 hgt) id)) pre =
            subSeq s pre ℓ from hsubpre]
        rw [show List.filter (fun id => decide (ℓ < heightOf (spliceWrites
          s.nodes.length hgt sp (allocNode s e hgt).1 hgt) id)) post =
            subSeq s post ℓ from hsubpost]
        simp
      rw [hsub]
      refine (laneOk_append _ _ none).mpr ⟨?_, ?_⟩
      · -- the prefix segment is untouched
        refine laneSeg_congr2 hseg ?_
        intro u v huv hv
        refine hsafe _ ?_
        cases hu : u.getLast? with
        | none =>
          have hu0 : u = [] := List.getLast?_eq_none_iff.mp hu
          subst hu0
          rw [segEnd_nil]
          refine Or.inl ⟨rfl, Or.inr ?_⟩
          rw [huv]
          simpa using hv
        | some y =>
          rw [show segEnd none u = some y by rw [segEnd_none]; exact hu]
          have hyu : y ∈ u := List.mem_of_mem_getLast? hu
          have hyA : y ∈ subSeq s pre ℓ := huv ▸ List.mem_append_left v hyu
          refine Or.inr ⟨y, rfl, (hApre y hyA).2, Or.inr ⟨(hApre y hyA).1, Or.inr ?_⟩⟩
          intro hlast
          have hlast' : (subSeq s pre ℓ).getLast? = v.getLast? := by
            rw [huv]
            exact List.getLast?_append_of_ne_nil u hv
          rw [hlast'] at hlast
          have hyv : y ∈ v := List.mem_of_mem_getLast? hlast
          have hdAB := List.disjoint_of_nodup_append (huv ▸ hAnodup)
          exact hdAB hyu hyv
      · -- head of the suffix: the overwritten predecessor slot now holds nid
        have hmsrc : ∀ p, segEnd none (subSeq s pre ℓ) = some p → p ∈ ids ∧ ℓ < heightOf s p := by
          intro p hp
          rw [segEnd_none] at hp
          exact ⟨hmempre p (hpredmem ℓ p hp).1, (hpredmem ℓ p hp).2⟩
        have hfhead : laneVal (spliceWrites s.nodes.length hgt sp (allocNode s e hgt).1 hgt)
            (segEnd none (subSeq s pre ℓ)) ℓ = some s.nodes.length := by
          have hslf : slotFor (spliceWrites s.nodes.length hgt sp (allocNode s e hgt).1 hgt)
              (segEnd none (subSeq s pre ℓ)) ℓ = (sp.getD ℓ spDflt).1 := by
            rw [hslotj ℓ (by omega)]
            rw [← segEnd_none]
            cases hsE : segEnd none (subSeq s pre ℓ) with
            | none => rfl
            | some p =>
              simp only [slotFor]
              rw [hHold p (hmsrc p hsE).1]
          show readSlot _ (slotFor _ _ ℓ) = _
          rw [hslf]
          exact readSlot_spliceWrites_pred hD1 hD2 hV hgt (Nat.le_refl hgt) ℓ hcase
        have hnlane : laneVal (spliceWrites s.nodes.length hgt sp (allocNode s e hgt).1 hgt)
            (some s.nodes.length) ℓ = (subSeq s post ℓ).head? := by
          have hslf : slotFor (spliceWrites s.nodes.length hgt sp (allocNode s e hgt).1 hgt)
              (some s.nodes.length) ℓ = .node s.nodes.length (hgt - 1 - ℓ) := by
            simp only [slotFor]
            rw [hHnid]
          show readSlot _ (slotFor _ _ ℓ) = _
          rw [hslf]
          rw [readSlot_spliceWrites_newlane hn1 (by simp) hD1 hgt (Nat.le_refl hgt) ℓ hcase]
          exact hsuccj ℓ (by omega)
        cases hB : subSeq s post ℓ with
        | nil =>
          refine ⟨hfhead, ?_⟩
          show laneVal (spliceWrites s.nodes.length hgt sp (allocNode s e hgt).1 hgt)
            (some s.nodes.length) ℓ = none
          rw [hnlane, hB]
          rfl
        | cons b B' =>
          refine ⟨hfhead, ?_, ?_⟩
          · show laneVal (spliceWrites s.nodes.length hgt sp (allocNode s e hgt).1 hgt)
              (some s.nodes.length) ℓ = some b
            rw [hnlane, hB]
            rfl
          · -- the tail of the suffix is untouched
            rw [hB] at hok
            refine laneOk_congr hok.2 ?_
            intro x hx
            refine hsafe x ?_
            rcases hx with rfl | ⟨y, hy, rfl⟩
            · have hbB : b ∈ subSeq s post ℓ := by rw [hB]; exact List.mem_cons_self _ _
              exact Or.inr ⟨b, rfl, (hBpost b hbB).2, Or.inl (hBpost b hbB).1⟩
            · have hyB : y ∈ subSeq s post ℓ := by
                rw [hB]; exact List.mem_cons_of_mem b hy
              exact Or.inr ⟨y, rfl, (hBpost y hyB).2, Or.inl (hBpost y hyB).1⟩
    · -- the new node does not reach this level: everything is untouched
      have hsub : subSeq (spliceWrites s.nodes.length hgt sp (allocNode s e hgt).1 hgt)
          (pre ++ s.nodes.length :: post) ℓ =
          subSeq s pre ℓ ++ subSeq s post ℓ := by
        show List.filter _ (pre ++ s.nodes.length :: post) = _
        rw [List.filter_append, List.filter_cons]
        rw [show (decide (ℓ < heightOf (spliceWrites s.nodes.length hgt sp
          (allocNode s e hgt).1 hgt) s.nodes.length)) = false by
            simp [hHnid]; omega]
        rw [show List.filter (fun id => decide (ℓ < heightOf (spliceWrites
          s.nodes.length hgt sp (allocNode s e hgt).1 hgt) id)) pre =
            subSeq s pre ℓ from hsubpre]
        rw [show List.filter (fun id => decide (ℓ < heightOf (spliceWrites
          s.nodes.length hgt sp (allocNode s e hgt).1 hgt) id)) post =
            subSeq s post ℓ from hsubpost]
        simp
      rw [hsub]
      refine laneOk_congr hold ?_
      intro x hx
      refine hsafe x ?_
      rcases hx with rfl | ⟨y, hy, rfl⟩
      · exact Or.inl ⟨rfl, Or.inl (by omega)⟩
      · rcases List.mem_append.mp hy with hy | hy
        · exact Or.inr ⟨y, rfl, (hApre y hy).2, Or.inr ⟨(hApre y hy).1, Or.inl (by omega)⟩⟩
        · exact Or.inr ⟨y, rfl, (hBpost y hy).2, Or.inl (hBpost y hy).1⟩

/-! ## `get` runs the same walk as the find-spots loop

`SkipList::get` and the walk phase of `insert` are the same traversal;
`get` merely does not record spots.  The two lemmas below transport the
walk lemma to `getLoop`. -/

theorem getLoop_of_findLoop_found {s : SkipList α} {q : α → Ordering} :
    ∀ (fuel : Nat) (sl : Slot) (k : Nat) (sp : List (Slot × Option Nat)) {id : Nat},
      findLoop s q fuel sl k sp = some (.found id) →
      getLoop s q fuel sl k = some (some id) := by
  intro fuel
  induction fuel with
  | zero =>
    intro sl k sp id h
    exact Option.noConfusion h
  | succ fuel ih =>
    intro sl k sp id h
    by_cases hk : k = 0
    · subst hk
      simp [findLoop] at h
    · cases hr : readSlot s sl with
      | none =>
        simp only [findLoop, if_neg hk, hr] at h
        simp only [getLoop, if_neg hk, hr]
        exact ih _ _ _ h
      | some nid =>
        cases hn : s.nodes[nid]? with
        | none =>
          simp only [findLoop, if_neg hk, hr, hn] at h
          exact Option.noConfusion h
        | some n =>
          cases hqc : q n.elem with
          | eq =>
            simp only [findLoop, if_neg hk, hr, hn, hqc, Option.some.injEq,
              FindResult.found.injEq] at h
            simp only [getLoop, if_neg hk, hr, hn, hqc, Option.some.injEq]
            exact h
          | lt =>
            simp only [findLoop, if_neg hk, hr, hn, hqc] at h
            simp only [getLoop, if_neg hk, hr, hn, hqc]
            exact ih _ _ _ h
          | gt =>
            simp only [findLoop, if_neg hk, hr, hn, hqc] at h
            simp only [getLoop, if_neg hk, hr, hn, hqc]
            exact ih _ _ _ h

theorem getLoop_of_findLoop_spots {s : SkipList α} {q : α → Ordering} :
    ∀ (fuel : Nat) (sl : Slot) (k : Nat) (sp : List (Slot × Option Nat))
      {sp2 : List (Slot × Option Nat)},
      findLoop s q fuel sl k sp = some (.spots sp2) →
      getLoop s q fuel sl k = some none := by
  intro fuel
  induction fuel with
  | zero =>
    intro sl k sp sp2 h
    exact Option.noConfusion h
  | succ fuel ih =>
    intro sl k sp sp2 h
    by_cases hk : k = 0
    · subst hk
      simp [getLoop]
    · cases hr : readSlot s sl with
      | none =>
        simp only [findLoop, if_neg hk, hr] at h
        simp only [getLoop, if_neg hk, hr]
        exact ih _ _ _ h
      | some nid =>
        cases hn : s.nodes[nid]? with
        | none =>
          simp only [findLoop, if_neg hk, hr, hn] at h
          exact Option.noConfusion h
        | some n =>
          cases hqc : q n.elem with
          | eq =>
            simp only [findLoop, if_neg hk, hr, hn, hqc, Option.some.injEq] at h
            exact FindResult.noConfusion h
          | lt =>
            simp only [findLoop, if_neg hk, hr, hn, hqc] at h
            simp only [getLoop, if_neg hk, hr, hn, hqc]
            exact ih _ _ _ h
          | gt =>
            simp only [findLoop, if_neg hk, hr, hn, hqc] at h
            simp only [getLoop, if_neg hk, hr, hn, hqc]
            exact ih _ _ _ h

/-! ## The walk lemma at the top of the list -/

theorem findLoop_top {cmp : α → α → Ordering} {s : SkipList α} {ids : List Nat}
    (R : Represents cmp s ids) {q : α → Ordering} (hq : QCompat cmp q) :
    (∃ id a, findLoop s q (walkFuel s) (.head 0) MAX_HEIGHT
        (List.replicate MAX_HEIGHT spDflt) = some (.found id) ∧
      id ∈ ids ∧ elemAt s id = some a ∧ q a = .eq) ∨
    (∃ preF postF spF, findLoop s q (walkFuel s) (.head 0) MAX_HEIGHT
        (List.replicate MAX_HEIGHT spDflt) = some (.spots spF) ∧
      ids = preF ++ postF ∧
      (∀ id ∈ preF, qIs s q .gt id) ∧ (∀ id ∈ postF, qIs s q .lt id) ∧
      spF.length = MAX_HEIGHT ∧
      (∀ ℓ, ℓ < MAX_HEIGHT → spF.getD ℓ spDflt = spotAt s preF postF ℓ)) := by
  refine findLoop_spec R hq (walkFuel s) [] ids MAX_HEIGHT (.head 0)
    (List.replicate MAX_HEIGHT spDflt) rfl (by simp) ?_ (Nat.le_refl _) ?_ (by simp)
    ?_ ?_
  · intro id hid hh
    have hb := (R.height_bounds hid).2
    omega
  · exact Or.inl ⟨rfl, by rw [Nat.sub_self]⟩
  · intro ℓ h1 h2
    omega
  · have hl := R.length_le
    simp only [walkFuel, MAX_HEIGHT]
    omega

/-! ## Characterisation of `get` -/

theorem get_spec {cmp : α → α → Ordering} {s : SkipList α} {ids : List Nat}
    (R : Represents cmp s ids) {q : α → Ordering} (hq : QCompat cmp q) :
    (∃ id a, s.get q = some (some id) ∧ id ∈ ids ∧ elemAt s id = some a ∧
      q a = .eq) ∨
    (s.get q = some none ∧ ∀ id ∈ ids, ¬ qIs s q .eq id) := by
  rcases findLoop_top R hq with ⟨id, a, hf, hm, he, hqa⟩ |
    ⟨pre2, post2, sp2, hf, hsp2, hgt2, hlt2, -, -⟩
  · exact Or.inl ⟨id, a, getLoop_of_findLoop_found _ _ _ _ hf, hm, he, hqa⟩
  · refine Or.inr ⟨getLoop_of_findLoop_spots _ _ _ _ hf, ?_⟩
    intro id hid hex
    obtain ⟨a, ha, hqa⟩ := hex
    rw [hsp2] at hid
    rcases List.mem_append.mp hid with h | h
    · obtain ⟨b, hb, hqb⟩ := hgt2 id h
      rw [ha] at hb
      cases hb
      rw [hqa] at hqb
      exact Ordering.noConfusion hqb
    · obtain ⟨b, hb, hqb⟩ := hlt2 id h
      rw [ha] at hb
      cases hb
      rw [hqa] at hqb
      exact Ordering.noConfusion hqb

/-! ## The abstract sorted-list model -/

theorem pairwise_absElems {cmp : α → α → Ordering} {s : SkipList α} :
    ∀ {ids : List Nat}, ids.Pairwise (idLt cmp s) →
      (absElems s ids).Pairwise (fun a b => cmp a b = .lt) := by
  intro ids
  induction ids with
  | nil => intro _; exact List.Pairwise.nil
  | cons x xs ih =>
    intro h
    rw [List.pairwise_cons] at h
    show (List.filterMap (elemAt s) (x :: xs)).Pairwise _
    cases he : elemAt s x with
    | none =>
      simp only [List.filterMap_cons, he]
      exact ih h.2
    | some a =>
      simp only [List.filterMap_cons, he]
      rw [List.pairwise_cons]
      refine ⟨?_, ih h.2⟩
      intro b hb
      obtain ⟨y, hy, hyb⟩ := List.mem_filterMap.mp hb
      exact h.1 y hy a b he hyb

theorem absElems_length {s : SkipList α} :
    ∀ {ids : List Nat}, (∀ id ∈ ids, ∃ a, elemAt s id = some a) →
      (absElems s ids).length = ids.length := by
  intro ids
  induction ids with
  | nil => intro _; rfl
  | cons x xs ih =>
    intro h
    obtain ⟨a, ha⟩ := h x (List.mem_cons_self x xs)
    show (List.filterMap (elemAt s) (x :: xs)).length = xs.length + 1
    simp only [List.filterMap_cons, ha, List.length_cons]
    show (absElems s xs).length + 1 = xs.length + 1
    rw [ih (fun id hid => h id (List.mem_cons_of_mem x hid))]

theorem insertAbs_split {cmp : α → α → Ordering} {e : α} :
    ∀ {la lb : List α}, (∀ a ∈ la, cmp e a = .gt) → (∀ b ∈ lb, cmp e b = .lt) →
      insertAbs cmp e (la ++ lb) = la ++ e :: lb := by
  intro la
  induction la with
  | nil =>
    intro lb _ hlb
    cases lb with
    | nil => rfl
    | cons b bs =>
      show insertAbs cmp e (b :: bs) = e :: b :: bs
      simp [insertAbs, hlb b (List.mem_cons_self _ _)]
  | cons x xs ih =>
    intro lb hla hlb
    show insertAbs cmp e (x :: (xs ++ lb)) = x :: (xs ++ e :: lb)
    simp only [insertAbs, hla x (List.mem_cons_self _ _)]
    rw [ih (fun a ha => hla a (List.mem_cons_of_mem x ha)) hlb]

theorem insertAbs_eq_mem {cmp : α → α → Ordering} (hc : CmpOk cmp) {e : α} :
    ∀ {l : List α}, l.Pairwise (fun a b => cmp a b = .lt) →
      (∃ a ∈ l, cmp e a = .eq) → insertAbs cmp e l = l := by
  intro l
  induction l with
  | nil =>
    intro _ h
    obtain ⟨a, ha, -⟩ := h
    exact absurd ha (List.not_mem_nil a)
  | cons x xs ih =>
    intro hp h
    obtain ⟨a, ha, hae⟩ := h
    rcases List.mem_cons.mp ha with rfl | ha2
    · show insertAbs cmp e (a :: xs) = a :: xs
      simp [insertAbs, hae]
    · have hxa : cmp x a = .lt := (List.rel_of_pairwise_cons hp) ha2
      have hex : cmp e x = .gt :=
        hc.gt_iff.mpr (hc.lt_eq hxa (hc.eq_symm hae))
      show insertAbs cmp e (x :: xs) = x :: xs
      simp only [insertAbs, hex]
      rw [ih (List.Pairwise.of_cons hp) ⟨a, ha2, hae⟩]

theorem mem_insertAbs {cmp : α → α → Ordering} {e x : α} :
    ∀ {l : List α}, x ∈ insertAbs cmp e l → x = e ∨ x ∈ l := by
  intro l
  induction l with
  | nil =>
    intro h
    simp only [insertAbs] at h
    rcases List.mem_singleton.mp h with rfl
    exact Or.inl rfl
  | cons y ys ih =>
    intro h
    cases hcy : cmp e y with
    | gt =>
      simp only [insertAbs, hcy] at h
      rcases List.mem_cons.mp h with rfl | h2
      · exact Or.inr (List.mem_cons_self _ _)
      · rcases ih h2 with h3 | h3
        · exact Or.inl h3
        · exact Or.inr (List.mem_cons_of_mem _ h3)
    | eq =>
      simp only [insertAbs, hcy] at h
      exact Or.inr h
    | lt =>
      simp only [insertAbs, hcy] at h
      rcases List.mem_cons.mp h with rfl | h2
      · exact Or.inl rfl
      · exact Or.inr h2

theorem insertAbs_mem_of_mem {cmp : α → α → Ordering} {e x : α} :
    ∀ {l : List α}, x ∈ l → x ∈ insertAbs cmp e l := by
  intro l
  induction l with
  | nil =>
    intro h
    exact absurd h (List.not_mem_nil x)
  | cons y ys ih =>
    intro h
    cases hcy : cmp e y with
    | gt =>
      simp only [insertAbs, hcy]
      rcases List.mem_cons.mp h with rfl | h2
      · exact List.mem_cons_self _ _
      · exact List.mem_cons_of_mem _ (ih h2)
    | eq =>
      simp only [insertAbs, hcy]
      exact h
    | lt =>
      simp only [insertAbs, hcy]
      exact List.mem_cons_of_mem _ h

theorem insertAbs_covers {cmp : α → α → Ordering} (hc : CmpOk cmp) (e : α) :
    ∀ (l : List α), ∃ a ∈ insertAbs cmp e l, cmp a e = .eq := by
  intro l
  induction l with
  | nil => exact ⟨e, List.mem_cons_self e [], hc.eq_refl e⟩
  | cons y ys ih =>
    cases hcy : cmp e y with
    | gt =>
      obtain ⟨a, ha, hae⟩ := ih
      refine ⟨a, ?_, hae⟩
      simp only [insertAbs, hcy]
      exact List.mem_cons_of_mem _ ha
    | eq =>
      refine ⟨y, ?_, hc.eq_symm hcy⟩
      simp only [insertAbs, hcy]
      exact List.mem_cons_self _ _
    | lt =>
      refine ⟨e, ?_, hc.eq_refl e⟩
      simp only [insertAbs, hcy]
      exact List.mem_cons_self _ _

theorem pairwise_eq_unique {cmp : α → α → Ordering} (hc : CmpOk cmp) {a b : α}
    (hab : cmp a b = .eq) :
    ∀ {l : List α}, l.Pairwise (fun x y => cmp x y = .lt) → a ∈ l → b ∈ l →
      a = b := by
  intro l
  induction l with
  | nil =>
    intro _ ha _
    exact absurd ha (List.not_mem_nil a)
  | cons x xs ih =>
    intro hp ha hb
    rcases List.mem_cons.mp ha with ha1 | ha2
    · rcases List.mem_cons.mp hb with hb1 | hb2
      · rw [ha1, hb1]
      · exfalso
        have hr : cmp x b = .lt := (List.rel_of_pairwise_cons hp) hb2
        rw [← ha1] at hr
        rw [hab] at hr
        exact Ordering.noConfusion hr
    · rcases List.mem_cons.mp hb with hb1 | hb2
      · exfalso
        have hr : cmp x a = .lt := (List.rel_of_pairwise_cons hp) ha2
        rw [← hb1] at hr
        rw [hc.eq_symm hab] at hr
        exact Ordering.noConfusion hr
      · exact ih (List.Pairwise.of_cons hp) ha2 hb2

theorem filterMap_congr_mem {β γ : Type} {f g : β → Option γ} :
    ∀ {l : List β}, (∀ x ∈ l, f x = g x) → l.filterMap f = l.filterMap g := by
  intro l
  induction l with
  | nil => intro _; rfl
  | cons x xs ih =>
    intro h
    simp only [List.filterMap_cons, h x (List.mem_cons_self x xs)]
    rw [ih (fun y hy => h y (List.mem_cons_of_mem x hy))]

/-! ## Characterisation of `insert` -/

theorem insert_spec {cmp : α → α → Ordering} (hc : CmpOk cmp) {s : SkipList α}
    {ids : List Nat} (R : Represents cmp s ids)
    (hperm : ids.Perm (List.range s.nodes.length)) (e : α) {hgt : Nat}
    (hg1 : 1 ≤ hgt) (hg31 : hgt ≤ MAX_HEIGHT) :
    ∃ ids2, Represents cmp (s.insert cmp e hgt).1 ids2 ∧
      ids2.Perm (List.range (s.insert cmp e hgt).1.nodes.length) ∧
      absElems (s.insert cmp e hgt).1 ids2 = insertAbs cmp e (absElems s ids) ∧
      ((∃ a ∈ absElems s ids, cmp e a = .eq) → s.insert cmp e hgt = (s, some e)) ∧
      ((¬ ∃ a ∈ absElems s ids, cmp e a = .eq) →
        (s.insert cmp e hgt).2 = none) := by
  have hq : QCompat cmp (cmp e ·) := qcompat_cmp hc e
  rcases findLoop_top R hq with ⟨id, a, hf, hm, he, hqa⟩ |
    ⟨pre2, post2, sp2, hf, hsplit2, hgt2, hlt2, hlen2, hsp2⟩
  · have hins : s.insert cmp e hgt = (s, some e) := by
      simp only [SkipList.insert, hf]
    have hmem : a ∈ absElems s ids := List.mem_filterMap.mpr ⟨id, hm, he⟩
    have hpres : ∃ b ∈ absElems s ids, cmp e b = .eq := ⟨a, hmem, hqa⟩
    refine ⟨ids, ?_, ?_, ?_, fun _ => hins, fun hno => absurd hpres hno⟩
    · rw [hins]
      exact R
    · rw [hins]
      exact hperm
    · rw [hins]
      show absElems s ids = insertAbs cmp e (absElems s ids)
      rw [insertAbs_eq_mem hc (pairwise_absElems R.sorted) hpres]
  · have hsplice := splice_spec R hc hsplit2 hgt2 hlt2 hg1 hg31 hlen2 hsp2
    obtain ⟨hrun, R2, hEnid, hEold, hnlen⟩ := hsplice
    set S2 := spliceWrites s.nodes.length hgt sp2 (allocNode s e hgt).1 hgt with hS2
    have hins : s.insert cmp e hgt = (S2, none) := by
      have hrun2 : spliceLoop (allocNode s e hgt).2 (allocNode s e hgt).1
          (spliceEntries hgt sp2) false = (S2, true) := hrun
      simp only [SkipList.insert, hf]
      rw [hrun2]
    have habs : absElems s ids = absElems s pre2 ++ absElems s post2 := by
      rw [hsplit2]
      show List.filterMap (elemAt s) (pre2 ++ post2) = _
      rw [List.filterMap_append]
      rfl
    have hpreelem : ∀ b ∈ absElems s pre2, cmp e b = .gt := by
      intro b hb
      obtain ⟨idb, hidb, hbe⟩ := List.mem_filterMap.mp hb
      obtain ⟨c, hce, hcq⟩ := hgt2 idb hidb
      rw [hbe] at hce
      cases hce
      exact hcq
    have hpostelem : ∀ b ∈ absElems s post2, cmp e b = .lt := by
      intro b hb
      obtain ⟨idb, hidb, hbe⟩ := List.mem_filterMap.mp hb
      obtain ⟨c, hce, hcq⟩ := hlt2 idb hidb
      rw [hbe] at hce
      cases hce
      exact hcq
    have hperm2 : (pre2 ++ s.nodes.length :: post2).Perm
        (List.range (s.nodes.length + 1)) := by
      have h1 : (pre2 ++ s.nodes.length :: post2).Perm
          (s.nodes.length :: (pre2 ++ post2)) := List.perm_middle
      have h2 : (s.nodes.length :: (pre2 ++ post2)).Perm
          (s.nodes.length :: List.range s.nodes.length) :=
        List.Perm.cons _ (hsplit2 ▸ hperm)
      have h3 : (s.nodes.length :: List.range s.nodes.length).Perm
          (List.range s.nodes.length ++ [s.nodes.length]) :=
        (List.perm_append_singleton _ _).symm
      rw [List.range_succ]
      exact (h1.trans h2).trans h3
    have h4 : absElems S2 (pre2 ++ s.nodes.length :: post2) =
        absElems s pre2 ++ e :: absElems s post2 := by
      show List.filterMap (elemAt S2) (pre2 ++ s.nodes.length :: post2) = _
      rw [List.filterMap_append]
      congr 1
      · exact filterMap_congr_mem (fun idb hidb => hEold idb
          (R.mem_lt_length (hsplit2 ▸ List.mem_append_left post2 hidb)))
      · simp only [List.filterMap_cons, hEnid]
        congr 1
        exact filterMap_congr_mem (fun idb hidb => hEold idb
          (R.mem_lt_length (hsplit2 ▸ List.mem_append_right pre2 hidb)))
    refine ⟨pre2 ++ s.nodes.length :: post2, ?_, ?_, ?_, ?_, ?_⟩
    · rw [hins]
      exact R2
    · rw [hins]
      show (pre2 ++ s.nodes.length :: post2).Perm (List.range S2.nodes.length)
      rw [hnlen]
      exact hperm2
    · rw [hins]
      show absElems S2 (pre2 ++ s.nodes.length :: post2) =
        insertAbs cmp e (absElems s ids)
      rw [habs, insertAbs_split hpreelem hpostelem]
      exact h4
    · intro hpres
      exfalso
      obtain ⟨b, hb, hbe⟩ := hpres
      rw [habs] at hb
      rcases List.mem_append.mp hb with h5 | h5
      · rw [hpreelem b h5] at hbe
        exact Ordering.noConfusion hbe
      · rw [hpostelem b h5] at hbe
        exact Ordering.noConfusion hbe
    · intro hno
      rw [hins]

/-! ## The bottom-lane walk: `elems`, `Drop`, `into_elems` -/

theorem subSeq_zero {cmp : α → α → Ordering} {s : SkipList α} {ids : List Nat}
    (R : Represents cmp s ids) : subSeq s ids 0 = ids := by
  show List.filter _ ids = ids
  rw [List.filter_eq_self]
  intro id hid
  have h1 := (R.height_bounds hid).1
  simp
  omega

theorem next_eq_laneVal {s : SkipList α} {id : Nat} {n : Node α}
    (hn : s.nodes[id]? = some n) : n.next = laneVal s (some id) 0 := by
  show n.lanes.getD (n.height - 1) none =
    readSlot s (.node id (heightOf s id - 1 - 0))
  simp only [readSlot, heightOf, hn, Nat.sub_zero]

theorem nodesWalk_of_laneOk {cmp : α → α → Ordering} {s : SkipList α}
    {ids : List Nat} (R : Represents cmp s ids) :
    ∀ (rest : List Nat) (prev : Option Nat) (fuel : Nat),
      (∀ id ∈ rest, id ∈ ids) →
      laneOk (fun src => laneVal s src 0) prev rest →
      rest.length + 1 ≤ fuel →
      nodesWalk s.nodes fuel (laneVal s prev 0) = rest := by
  intro rest
  induction rest with
  | nil =>
    intro prev fuel _ hok hfuel
    have h0 : laneVal s prev 0 = none := hok
    rw [h0]
    obtain ⟨f, rfl⟩ : ∃ f, fuel = f + 1 := ⟨fuel - 1, by omega⟩
    rfl
  | cons x xs ih =>
    intro prev fuel hsub hok hfuel
    have hx : laneVal s prev 0 = some x := hok.1
    rw [hx]
    obtain ⟨f, rfl⟩ : ∃ f, fuel = f + 1 := ⟨fuel - 1, by omega⟩
    obtain ⟨n, hn, -⟩ := R.valid x (hsub x (List.mem_cons_self x xs))
    show (match s.nodes[x]? with
      | none => []
      | some n => x :: nodesWalk s.nodes f n.next) = x :: xs
    rw [hn]
    show x :: nodesWalk s.nodes f n.next = x :: xs
    congr 1
    rw [next_eq_laneVal hn]
    exact ih (some x) f (fun id hid => hsub id (List.mem_cons_of_mem x hid)) hok.2
      (by simp only [List.length_cons] at hfuel; omega)

theorem elems_eq {cmp : α → α → Ordering} {s : SkipList α} {ids : List Nat}
    (R : Represents cmp s ids) : s.elems = absElems s ids := by
  have hch := R.chain 0 (by norm_num [MAX_HEIGHT])
  rw [subSeq_zero R] at hch
  have hw : nodesWalk s.nodes (s.nodes.length + 1) (laneVal s none 0) = ids :=
    nodesWalk_of_laneOk R ids none (s.nodes.length + 1) (fun id h => h) hch
      (by have := R.length_le; omega)
  show (nodesWalk s.nodes (s.nodes.length + 1) s.first).filterMap (elemOf s.nodes) = _
  rw [show s.first = laneVal s none 0 from rfl, hw]
  rfl

theorem dropFreed_eq {cmp : α → α → Ordering} {s : SkipList α} {ids : List Nat}
    (R : Represents cmp s ids) : s.dropFreed = ids := by
  have hch := R.chain 0 (by norm_num [MAX_HEIGHT])
  rw [subSeq_zero R] at hch
  have hw : nodesWalk s.nodes (s.nodes.length + 1) (laneVal s none 0) = ids :=
    nodesWalk_of_laneOk R ids none (s.nodes.length + 1) (fun id h => h) hch
      (by have := R.length_le; omega)
  show nodesWalk s.nodes (s.nodes.length + 1) s.first = ids
  rw [show s.first = laneVal s none 0 from rfl, hw]

theorem dropDestructors_eq {cmp : α → α → Ordering} {s : SkipList α}
    {ids : List Nat} (R : Represents cmp s ids) :
    s.dropDestructors = absElems s ids := by
  show (s.dropFreed).filterMap (elemOf s.nodes) = absElems s ids
  rw [dropFreed_eq R]
  rfl

theorem drainAux_of_laneOk {cmp : α → α → Ordering} {s : SkipList α}
    {ids : List Nat} (R : Represents cmp s ids) :
    ∀ (rest : List Nat) (prev : Option Nat) (fuel : Nat),
      (∀ id ∈ rest, id ∈ ids) →
      laneOk (fun src => laneVal s src 0) prev rest →
      rest.length + 1 ≤ fuel →
      (drainAux fuel (⟨s.nodes, laneVal s prev 0⟩ : IntoElems α)).1 =
        absElems s rest ∧
      (drainAux fuel (⟨s.nodes, laneVal s prev 0⟩ : IntoElems α)).2.1 = rest := by
  intro rest
  induction rest with
  | nil =>
    intro prev fuel _ hok hfuel
    have h0 : laneVal s prev 0 = none := hok
    rw [h0]
    obtain ⟨f, rfl⟩ : ∃ f, fuel = f + 1 := ⟨fuel - 1, by omega⟩
    exact ⟨rfl, rfl⟩
  | cons x xs ih =>
    intro prev fuel hsub hok hfuel
    have hx : laneVal s prev 0 = some x := hok.1
    rw [hx]
    obtain ⟨f, rfl⟩ : ∃ f, fuel = f + 1 := ⟨fuel - 1, by omega⟩
    obtain ⟨n, hn, -⟩ := R.valid x (hsub x (List.mem_cons_self x xs))
    have hnext : IntoElems.next (⟨s.nodes, some x⟩ : IntoElems α) =
        (some (n.elem, x), (⟨s.nodes, n.next⟩ : IntoElems α)) := by
      show (match s.nodes[x]? with
        | none => (none, (⟨s.nodes, some x⟩ : IntoElems α))
        | some n => (some (n.elem, x),
            { (⟨s.nodes, some x⟩ : IntoElems α) with ptr := n.next })) = _
      rw [hn]
    have helem : elemAt s x = some n.elem := by simp [elemAt, elemOf, hn]
    have hr := ih (some x) f (fun id hid => hsub id (List.mem_cons_of_mem x hid))
      hok.2 (by simp only [List.length_cons] at hfuel; omega)
    constructor
    · simp only [drainAux, hnext]
      rw [next_eq_laneVal hn, hr.1]
      show _ = List.filterMap (elemAt s) (x :: xs)
      simp only [List.filterMap_cons, helem]
      rfl
    · simp only [drainAux, hnext]
      rw [next_eq_laneVal hn, hr.2]

theorem drainAll_eq {cmp : α → α → Ordering} {s : SkipList α} {ids : List Nat}
    (R : Represents cmp s ids) : s.drainAll = absElems s ids := by
  have hch := R.chain 0 (by norm_num [MAX_HEIGHT])
  rw [subSeq_zero R] at hch
  have hd := drainAux_of_laneOk R ids none (s.nodes.length + 1) (fun id h => h)
    hch (by have := R.length_le; omega)
  show (drainAux (s.nodes.length + 1) s.into_elems).1 = _
  rw [show s.into_elems = (⟨s.nodes, laneVal s none 0⟩ : IntoElems α) from rfl]
  exact hd.1

/-! ## Building a list by a sequence of insertions -/

theorem foldl_insert_spec {cmp : α → α → Ordering} (hc : CmpOk cmp) :
    ∀ (M : List (α × Nat)) (s : SkipList α) (ids : List Nat),
      Represents cmp s ids → ids.Perm (List.range s.nodes.length) →
      (∀ p ∈ M, 1 ≤ p.2 ∧ p.2 ≤ MAX_HEIGHT) →
      ∃ ids2,
        Represents cmp (M.foldl (fun t p => (t.insert cmp p.1 p.2).1) s) ids2 ∧
        ids2.Perm (List.range
          (M.foldl (fun t p => (t.insert cmp p.1 p.2).1) s).nodes.length) ∧
        absElems (M.foldl (fun t p => (t.insert cmp p.1 p.2).1) s) ids2 =
          M.foldl (fun l p => insertAbs cmp p.1 l) (absElems s ids) := by
  intro M
  induction M with
  | nil =>
    intro s ids R hperm _
    exact ⟨ids, R, hperm, rfl⟩
  | cons p M' ih =>
    intro s ids R hperm hh
    obtain ⟨hp1, hp2⟩ := hh p (List.mem_cons_self p M')
    obtain ⟨ids1, R1, hperm1, habs1, -, -⟩ := insert_spec hc R hperm p.1 hp1 hp2
    obtain ⟨ids2, R2, hperm2, habs2⟩ := ih (s.insert cmp p.1 p.2).1 ids1 R1 hperm1
      (fun r hr => hh r (List.mem_cons_of_mem p hr))
    refine ⟨ids2, R2, hperm2, ?_⟩
    show absElems _ ids2 =
      M'.foldl (fun l r => insertAbs cmp r.1 l) (insertAbs cmp p.1 (absElems s ids))
    rw [← habs1]
    exact habs2

theorem build_spec {cmp : α → α → Ordering} (hc : CmpOk cmp) (M : List (α × Nat))
    (hh : ∀ p ∈ M, 1 ≤ p.2 ∧ p.2 ≤ MAX_HEIGHT) :
    ∃ ids, Represents cmp (buildL cmp M) ids ∧
      ids.Perm (List.range (buildL cmp M).nodes.length) ∧
      absElems (buildL cmp M) ids = absFold cmp M := by
  exact foldl_insert_spec hc M (SkipList.new α) [] (represents_new cmp)
    (by simp [SkipList.new]) hh

/-! ## Elements of the abstract fold -/

theorem absFold_subset {cmp : α → α → Ordering} {x : α} :
    ∀ (M : List (α × Nat)) (acc : List α),
      x ∈ M.foldl (fun l p => insertAbs cmp p.1 l) acc →
      x ∈ acc ∨ x ∈ M.map Prod.fst := by
  intro M
  induction M with
  | nil =>
    intro acc h
    exact Or.inl h
  | cons p M' ih =>
    intro acc h
    rcases ih (insertAbs cmp p.1 acc) h with h2 | h2
    · rcases mem_insertAbs h2 with h3 | h3
      · refine Or.inr ?_
        rw [h3]
        exact List.mem_cons_self _ _
      · exact Or.inl h3
    · exact Or.inr (List.mem_cons_of_mem _ h2)

theorem absFold_covers {cmp : α → α → Ordering} (hc : CmpOk cmp) {b : α} :
    ∀ (M : List (α × Nat)) (acc : List α),
      (b ∈ M.map Prod.fst ∨ ∃ a ∈ acc, cmp a b = .eq) →
      ∃ a ∈ M.foldl (fun l p => insertAbs cmp p.1 l) acc, cmp a b = .eq := by
  intro M
  induction M with
  | nil =>
    intro acc h
    rcases h with h | h
    · exact absurd h (List.not_mem_nil b)
    · exact h
  | cons p M' ih =>
    intro acc h
    refine ih (insertAbs cmp p.1 acc) ?_
    rcases h with h | ⟨a, ha, hab⟩
    · rcases List.mem_cons.mp h with h2 | h2
      · refine Or.inr ?_
        obtain ⟨a, ha, hae⟩ := insertAbs_covers hc p.1 acc
        refine ⟨a, ha, ?_⟩
        rw [← h2] at hae
        exact hae
      · exact Or.inl h2
    · exact Or.inr ⟨a, insertAbs_mem_of_mem ha, hab⟩

/-! ## The claims -/

/-- C1: for every finite sequence of elements inserted (in any order,
with duplicates allowed, each with a height in the range `random_height`
produces) into a `SkipList` created by `new()`, the `elems()` iterator
yields a strictly ascending sequence under the comparator; in particular
no two yielded elements compare `Equal`. -/
theorem c1_sorted_elems {cmp : α → α → Ordering} (hc : CmpOk cmp)
    (M : List (α × Nat)) (hh : ∀ p ∈ M, 1 ≤ p.2 ∧ p.2 ≤ MAX_HEIGHT) :
    (buildL cmp M).elems.Pairwise (fun a b => cmp a b = .lt) ∧
    (buildL cmp M).elems.Pairwise (fun a b => cmp a b ≠ .eq) := by
  obtain ⟨ids, R, hperm, habs⟩ := build_spec hc M hh
  rw [elems_eq R]
  have hp := pairwise_absElems R.sorted
  refine ⟨hp, hp.imp ?_⟩
  intro a b h
  rw [h]
  decide

theorem c1_witness :
    (buildL compare [((2 : Nat), 1), (0, 2), (2, 1)]).elems.Pairwise
      (fun a b => compare a b = .lt) ∧
    (buildL compare [((2 : Nat), 1), (0, 2), (2, 1)]).elems.Pairwise
      (fun a b => compare a b ≠ .eq) :=
  c1_sorted_elems cmpOk_compare [((2 : Nat), 1), (0, 2), (2, 1)] (by decide)

/-- C2: inserting an element that compares `Equal` to one already in the
list returns the `AlreadyPresent` outcome carrying the caller's element
back, and leaves the list state — hence the `elems()` sequence —
unchanged. -/
theorem c2_reinsert_unchanged {cmp : α → α → Ordering} (hc : CmpOk cmp)
    (M : List (α × Nat)) (hh : ∀ p ∈ M, 1 ≤ p.2 ∧ p.2 ≤ MAX_HEIGHT)
    (e : α) (hgt : Nat) (hg1 : 1 ≤ hgt) (hg31 : hgt ≤ MAX_HEIGHT)
    (hpresent : ∃ a ∈ (buildL cmp M).elems, cmp e a = .eq) :
    (buildL cmp M).insert cmp e hgt = (buildL cmp M, some e) ∧
    ((buildL cmp M).insert cmp e hgt).1.elems = (buildL cmp M).elems := by
  obtain ⟨ids, R, hperm, -⟩ := build_spec hc M hh
  obtain ⟨a, hmem, heq⟩ := hpresent
  rw [elems_eq R] at hmem
  obtain ⟨ids2, -, -, -, hout, -⟩ := insert_spec hc R hperm e hg1 hg31
  have h1 := hout ⟨a, hmem, heq⟩
  exact ⟨h1, by rw [h1]⟩

theorem c2_witness :
    (buildL compare [((5 : Nat), 1), (3, 2)]).insert compare 5 1 =
      (buildL compare [((5 : Nat), 1), (3, 2)], some 5) ∧
    ((buildL compare [((5 : Nat), 1), (3, 2)]).insert compare 5 1).1.elems =
      (buildL compare [((5 : Nat), 1), (3, 2)]).elems :=
  c2_reinsert_unchanged cmpOk_compare [((5 : Nat), 1), (3, 2)] (by decide) 5 1
    (by decide) (by decide) (by decide)

/-- C3: (a) after `insert e` returns the `Inserted` outcome, `get` with
the query `cmp e ·` returns `Some` of a stored element that compares
`Equal` to `e`; (b) for a query that compares `Equal` to no element of
the list, `get` returns `None`. -/
theorem c3_get_after_insert {cmp : α → α → Ordering} (hc : CmpOk cmp)
    (M : List (α × Nat)) (hh : ∀ p ∈ M, 1 ≤ p.2 ∧ p.2 ≤ MAX_HEIGHT)
    (e : α) (hgt : Nat) (hg1 : 1 ≤ hgt) (hg31 : hgt ≤ MAX_HEIGHT)
    {q : α → Ordering} (hq : QCompat cmp q)
    (habsent : ∀ a ∈ (buildL cmp M).elems, q a ≠ .eq) :
    (((buildL cmp M).insert cmp e hgt).2 = none →
      ∃ id a,
        (((buildL cmp M).insert cmp e hgt).1).get (cmp e ·) = some (some id) ∧
        elemAt (((buildL cmp M).insert cmp e hgt).1) id = some a ∧
        cmp e a = .eq) ∧
    (buildL cmp M).get q = some none := by
  obtain ⟨ids, R, hperm, -⟩ := build_spec hc M hh
  constructor
  · intro _
    obtain ⟨ids2, R2, hperm2, habs2, -, -⟩ := insert_spec hc R hperm e hg1 hg31
    obtain ⟨a, ha, hae⟩ := insertAbs_covers hc e (absElems (buildL cmp M) ids)
    rw [← habs2] at ha
    obtain ⟨id, hid, hida⟩ := List.mem_filterMap.mp ha
    have hqis : qIs ((buildL cmp M).insert cmp e hgt).1 (cmp e ·) .eq id :=
      ⟨a, hida, hc.eq_symm hae⟩
    rcases get_spec R2 (qcompat_cmp hc e) with
      ⟨id2, a2, hg, -, he2, hq2⟩ | ⟨-, hnone⟩
    · exact ⟨id2, a2, hg, he2, hq2⟩
    · exact absurd hqis (hnone id hid)
  · rcases get_spec R hq with ⟨id, a, -, hmm, he, hqe⟩ | ⟨hg, -⟩
    · exfalso
      have hmem : a ∈ (buildL cmp M).elems := by
        rw [elems_eq R]
        exact List.mem_filterMap.mpr ⟨id, hmm, he⟩
      exact habsent a hmem hqe
    · exact hg

theorem c3_witness :
    ((((buildL compare [((1 : Nat), 1), (9, 1)]).insert compare 4 2).2 = none →
      ∃ id a,
        (((buildL compare [((1 : Nat), 1), (9, 1)]).insert compare 4 2).1).get
            (compare 4 ·) = some (some id) ∧
        elemAt (((buildL compare [((1 : Nat), 1), (9, 1)]).insert compare 4 2).1)
            id = some a ∧
        compare 4 a = .eq) ∧
    (buildL compare [((1 : Nat), 1), (9, 1)]).get (compare 7 ·) = some none) :=
  c3_get_after_insert cmpOk_compare [((1 : Nat), 1), (9, 1)] (by decide) 4 2
    (by decide) (by decide) (qcompat_cmp cmpOk_compare 7) (by decide)

/-- C4: for a list built by inserting a multiset `M`, `into_elems()`
yields a strictly ascending sequence (hence no element twice under the
comparator) consisting exactly of the distinct elements of `M`: every
yielded element was inserted, and every inserted element is represented
by exactly one yielded element comparing `Equal` to it. -/
theorem c4_drain {cmp : α → α → Ordering} (hc : CmpOk cmp)
    (M : List (α × Nat)) (hh : ∀ p ∈ M, 1 ≤ p.2 ∧ p.2 ≤ MAX_HEIGHT) :
    (buildL cmp M).drainAll.Pairwise (fun a b => cmp a b = .lt) ∧
    (buildL cmp M).drainAll.Pairwise (fun a b => cmp a b ≠ .eq) ∧
    (∀ x ∈ (buildL cmp M).drainAll, x ∈ M.map Prod.fst) ∧
    (∀ b ∈ M.map Prod.fst, ∃ a ∈ (buildL cmp M).drainAll, cmp a b = .eq) := by
  obtain ⟨ids, R, hperm, habs⟩ := build_spec hc M hh
  have hd : (buildL cmp M).drainAll = absFold cmp M := by
    rw [drainAll_eq R, habs]
  have hp : (absFold cmp M).Pairwise (fun a b => cmp a b = .lt) := by
    rw [← habs]
    exact pairwise_absElems R.sorted
  rw [hd]
  refine ⟨hp, hp.imp ?_, ?_, ?_⟩
  · intro a b h
    rw [h]
    decide
  · intro x hx
    rcases absFold_subset M [] hx with h | h
    · exact absurd h (List.not_mem_nil x)
    · exact h
  · intro b hb
    exact absFold_covers hc M [] (Or.inl hb)

theorem c4_witness :
    (buildL compare [((3 : Nat), 1), (1, 2), (3, 1), (2, 1)]).drainAll.Pairwise
      (fun a b => compare a b = .lt) ∧
    (buildL compare [((3 : Nat), 1), (1, 2), (3, 1), (2, 1)]).drainAll.Pairwise
      (fun a b => compare a b ≠ .eq) ∧
    (∀ x ∈ (buildL compare [((3 : Nat), 1), (1, 2), (3, 1), (2, 1)]).drainAll,
      x ∈ [((3 : Nat), 1), (1, 2), (3, 1), (2, 1)].map Prod.fst) ∧
    (∀ b ∈ [((3 : Nat), 1), (1, 2), (3, 1), (2, 1)].map Prod.fst,
      ∃ a ∈ (buildL compare [((3 : Nat), 1), (1, 2), (3, 1), (2, 1)]).drainAll,
        compare a b = .eq) :=
  c4_drain cmpOk_compare [((3 : Nat), 1), (1, 2), (3, 1), (2, 1)] (by decide)

/-- C5: counterexample evidence for the claim about dropping a
partially-consumed `into_elems()` iterator.  On the two-element list
`{0, 1}`, advancing the iterator once and then dropping it runs no
destructor and frees no node — `IntoElems` has no `Drop` implementation
in `src/skiplist/iter.rs` — although one element and its node remain. -/
theorem c5_partial_drop_leaks :
    ((buildL compare [((0 : Nat), 1), (1, 1)]).into_elems.next).2.remaining =
      [1] ∧
    ((buildL compare [((0 : Nat), 1), (1, 1)]).into_elems.next).2.dropDestructors =
      [] ∧
    ((buildL compare [((0 : Nat), 1), (1, 1)]).into_elems.next).2.dropFreed = [] :=
  ⟨by decide, rfl, rfl⟩

/-- C6: dropping a built `SkipList` walks the bottom lane and visits
every allocated node exactly once — the freed heap ids are a
permutation of all allocated ids, with no id freed twice — and runs each
stored element's destructor exactly once: the destructor sequence equals
the `elems()` sequence, one destructor per freed node, and no two
destroyed elements compare `Equal`. -/
theorem c6_drop_all {cmp : α → α → Ordering} (hc : CmpOk cmp)
    (M : List (α × Nat)) (hh : ∀ p ∈ M, 1 ≤ p.2 ∧ p.2 ≤ MAX_HEIGHT) :
    (buildL cmp M).dropFreed.Perm (List.range (buildL cmp M).nodes.length) ∧
    (buildL cmp M).dropFreed.Nodup ∧
    (buildL cmp M).dropDestructors = (buildL cmp M).elems ∧
    (buildL cmp M).dropDestructors.length = (buildL cmp M).dropFreed.length ∧
    (buildL cmp M).dropDestructors.Pairwise (fun a b => cmp a b ≠ .eq) := by
  obtain ⟨ids, R, hperm, -⟩ := build_spec hc M hh
  have hf := dropFreed_eq R
  have hdd := dropDestructors_eq R
  refine ⟨?_, ?_, ?_, ?_, ?_⟩
  · rw [hf]
    exact hperm
  · rw [hf]
    exact R.nodup
  · rw [hdd, elems_eq R]
  · rw [hdd, hf]
    exact absElems_length (fun id hid => R.elem_exists hid)
  · rw [hdd]
    exact (pairwise_absElems R.sorted).imp (fun h => by rw [h]; decide)

theorem c6_witness :
    (buildL compare [((4 : Nat), 1), (2, 3), (4, 1)]).dropFreed.Perm
      (List.range (buildL compare [((4 : Nat), 1), (2, 3), (4, 1)]).nodes.length) ∧
    (buildL compare [((4 : Nat), 1), (2, 3), (4, 1)]).dropFreed.Nodup ∧
    (buildL compare [((4 : Nat), 1), (2, 3), (4, 1)]).dropDestructors =
      (buildL compare [((4 : Nat), 1), (2, 3), (4, 1)]).elems ∧
    (buildL compare [((4 : Nat), 1), (2, 3), (4, 1)]).dropDestructors.length =
      (buildL compare [((4 : Nat), 1), (2, 3), (4, 1)]).dropFreed.length ∧
    (buildL compare [((4 : Nat), 1), (2, 3), (4, 1)]).dropDestructors.Pairwise
      (fun a b => compare a b ≠ .eq) :=
  c6_drop_all cmpOk_compare [((4 : Nat), 1), (2, 3), (4, 1)] (by decide)

/-- C10: on a map containing the entry `(k, v1)`, `Map::insert (k, v2)`
compares by key only: the insert is rejected as already present, the
whole rejected pair `(k, v2)` is returned to the caller, the state is
unchanged, and looking up `k` still finds the originally stored pair
`(k, v1)`. -/
theorem c10_map_insert_keeps_value {κ υ : Type} [LinearOrder κ]
    (M : List ((κ × υ) × Nat)) (hh : ∀ p ∈ M, 1 ≤ p.2 ∧ p.2 ≤ MAX_HEIGHT)
    (k : κ) (v1 v2 : υ) (hgt : Nat) (hg1 : 1 ≤ hgt) (hg31 : hgt ≤ MAX_HEIGHT)
    (hmem : (k, v1) ∈ (buildL kvCmp M).elems) :
    Map.insert (buildL kvCmp M) k v2 hgt = (buildL kvCmp M, some (k, v2)) ∧
    (∃ id, Map.get (buildL kvCmp M) k = some (some id) ∧
      elemAt (buildL kvCmp M) id = some (k, v1)) := by
  obtain ⟨ids, R, hperm, -⟩ := build_spec cmpOk_kvCmp M hh
  have hmem2 : (k, v1) ∈ absElems (buildL kvCmp M) ids := by
    rw [← elems_eq R]
    exact hmem
  have hkv : kvCmp (κ := κ) (υ := υ) (k, v2) (k, v1) = .eq := by
    show compare k k = .eq
    exact cmpOk_compare.eq_refl k
  constructor
  · obtain ⟨ids2, -, -, -, hout, -⟩ :=
      insert_spec cmpOk_kvCmp R hperm (k, v2) hg1 hg31
    exact hout ⟨(k, v1), hmem2, hkv⟩
  · rcases get_spec R (qcompat_kvQuery k) with
      ⟨id, a, hg, hmm, he, hqe⟩ | ⟨-, hnone⟩
    · refine ⟨id, hg, ?_⟩
      have haeq : kvCmp (κ := κ) (υ := υ) a (k, v1) = .eq := by
        show compare a.1 k = .eq
        have h2 : compare k a.1 = .eq := hqe
        exact cmpOk_compare.eq_symm h2
      have hmem3 : a ∈ absElems (buildL kvCmp M) ids :=
        List.mem_filterMap.mpr ⟨id, hmm, he⟩
      have h3 := pairwise_eq_unique cmpOk_kvCmp haeq
        (pairwise_absElems R.sorted) hmem3 hmem2
      rw [he, h3]
    · exfalso
      obtain ⟨id, hid, hide⟩ := List.mem_filterMap.mp hmem2
      exact hnone id hid
        ⟨(k, v1), hide, by show compare k k = .eq; exact cmpOk_compare.eq_refl k⟩

theorem c10_witness :
    Map.insert (buildL kvCmp [(((2 : Nat), (20 : Nat)), 1), ((1, 10), 2)]) 2 99 1 =
      (buildL kvCmp [(((2 : Nat), (20 : Nat)), 1), ((1, 10), 2)], some (2, 99)) ∧
    (∃ id,
      Map.get (buildL kvCmp [(((2 : Nat), (20 : Nat)), 1), ((1, 10), 2)]) 2 =
        some (some id) ∧
      elemAt (buildL kvCmp [(((2 : Nat), (20 : Nat)), 1), ((1, 10), 2)]) id =
        some (2, 20)) :=
  c10_map_insert_keeps_value [(((2 : Nat), (20 : Nat)), 1), ((1, 10), 2)]
    (by decide) 2 20 99 1 (by decide) (by decide) (by decide)

end Kudzu
